import Mathlib

/-!
Shallow embedding of `src/planit/planit.py` (the `planit` workflow library):
the Node tree data model (Step / Chain / Parallel), duration estimation,
the SLURM time-budget parser `_parse_slurm_time`, the submission traversal
`Plan.submit._walk`, and the wait traversal `Plan._wait_node`.

Modelling conventions:
- Python strings are modelled as `List Char` (wrapped in `String` at the API);
  `datetime.timedelta` values as integer seconds (`Int`; the parser itself
  yields a `Nat` count of seconds, cast to `Int` when stored on a Step);
- Python dicts as insertion-ordered association lists with Python's
  assignment semantics (update in place, append when missing);
- submitit job handles as natural-number job ids handed out by a counter;
  `str(job_id)` is decimal rendering;
- exceptions as `Except String`;
- `int(s)` is modelled with CPython's full acceptance grammar on the
  strings this code can hand it: optional surrounding whitespace, an
  optional `+` sign (`-` cannot occur, the string was split on it), then
  Unicode decimal digits with single underscores strictly between digits;
- Python's `strptime` field patterns, as in CPython `_strptime.py`:
  `%H` is `2[0-3]|[0-1]\d|\d`, `%M` is `[0-5]\d|\d`, `%S` is
  `6[0-1]|[0-5]\d|\d`, compiled without `re.ASCII` so `\d` matches every
  Unicode decimal digit (category Nd), the whole string must be consumed,
  and `datetime.strptime` then builds a `datetime`, whose constructor
  rejects the leap seconds 60 and 61 the `%S` pattern matched.
-/

namespace Planit

/-- Values stored in a submitit parameter dict: strings, ints and nested
dicts are the shapes this code ever puts in one. -/
inductive PyVal : Type where
  | vstr : String → PyVal
  | vint : Int → PyVal
  | vdict : List (String × PyVal) → PyVal

/-- A Python dict, as an insertion-ordered association list. -/
abbrev PyDict := List (String × PyVal)

/-- `d.get(k)` / `d[k]`: first binding of `k`. -/
def dictGet (m : PyDict) (k : String) : Option PyVal :=
  match m with
  | [] => none
  | (k2, v) :: rest => if k2 = k then some v else dictGet rest k

/-- `k in d`. -/
def dictContains (m : PyDict) (k : String) : Bool :=
  (dictGet m k).isSome

/-- `d[k] = v`: replace the first binding in place, else append. -/
def dictSet (m : PyDict) (k : String) (v : PyVal) : PyDict :=
  match m with
  | [] => [(k, v)]
  | (k2, v2) :: rest =>
    if k2 = k then (k2, v) :: rest else (k2, v2) :: dictSet rest k v

/-- `d.update(other)`: repeated item assignment, in `other`'s order. -/
def dictUpdate (m other : PyDict) : PyDict :=
  other.foldl (fun acc kv => dictSet acc kv.1 kv.2) m

/-- Python `str()` on the values this code ever stringifies (a raw dict's
`slurm_time` entry: in practice a string or an int). -/
def pyStr (v : PyVal) : String :=
  match v with
  | .vstr s => s
  | .vint n => toString n
  | .vdict _ => "{...}"

/-! ## The time parser `_parse_slurm_time` -/

/-- Numeric value of a list of decimal digit characters (most significant
first), as read left to right. -/
def digitsToNat (cs : List Char) : Nat :=
  cs.foldl (fun a c => 10 * a + (c.toNat - 48)) 0

/-- Start code points of the runs of Unicode decimal digits (category Nd)
beyond ASCII: each run is ten consecutive code points carrying the values
0-9. Together with the ASCII run at 48 these are exactly the characters
CPython's `int()` accepts as digits and its `re` matches for `\d`
(dumped from CPython 3.11 / its Unicode tables). -/
def ndRangeStarts : List Nat :=
  [0x660, 0x6F0, 0x7C0, 0x966, 0x9E6, 0xA66, 0xAE6, 0xB66, 0xBE6,
   0xC66, 0xCE6, 0xD66, 0xDE6, 0xE50, 0xED0, 0xF20, 0x1040, 0x1090, 0x17E0,
   0x1810, 0x1946, 0x19D0, 0x1A80, 0x1A90, 0x1B50, 0x1BB0, 0x1C40, 0x1C50, 0xA620,
   0xA8D0, 0xA900, 0xA9D0, 0xA9F0, 0xAA50, 0xABF0, 0xFF10, 0x104A0, 0x10D30, 0x11066,
   0x110F0, 0x11136, 0x111D0, 0x112F0, 0x11450, 0x114D0, 0x11650, 0x116C0, 0x11730,
   0x118E0, 0x11950, 0x11C50, 0x11D50, 0x11DA0, 0x16A60, 0x16AC0, 0x16B50, 0x1D7CE,
   0x1D7D8, 0x1D7E2, 0x1D7EC, 0x1D7F6, 0x1E140, 0x1E2F0, 0x1E950, 0x1FBF0]

/-- Scan the digit runs for the value of a code point. -/
def uniDigitValGo : List Nat → Nat → Option Nat
  | [], _ => none
  | b :: bs, n => if b ≤ n ∧ n < b + 10 then some (n - b) else uniDigitValGo bs n

/-- Decimal value of a Unicode decimal digit (category Nd), `none` for any
other character: what `\d` matches and `int()` gives one digit. -/
def uniDigitVal (c : Char) : Option Nat :=
  if 48 ≤ c.toNat ∧ c.toNat < 58 then some (c.toNat - 48)
  else uniDigitValGo ndRangeStarts c.toNat

/-- Code points `int()` strips as surrounding whitespace (dumped from
CPython 3.11: the characters c with `int("1" + c) == 1`). -/
def wsCodes : List Nat :=
  [0x9, 0xA, 0xB, 0xC, 0xD, 0x20, 0x85, 0xA0, 0x1680,
   0x2000, 0x2001, 0x2002, 0x2003, 0x2004, 0x2005, 0x2006, 0x2007,
   0x2008, 0x2009, 0x200A, 0x2028, 0x2029, 0x202F, 0x205F, 0x3000]

/-- Whitespace as `int()` strips it. -/
def isPyWS (c : Char) : Bool := wsCodes.contains c.toNat

/-- Strip `int()`-whitespace from both ends. -/
def stripWS (cs : List Char) : List Char :=
  ((cs.dropWhile isPyWS).reverse.dropWhile isPyWS).reverse

/-- Drop one leading `+` sign (a `-` cannot reach `int()` here: the input
was split on `-`). -/
def dropSign (cs : List Char) : List Char :=
  match cs with
  | [] => []
  | c :: rest => if c = '+' then rest else c :: rest

/-- After a first digit: Python's `digit (["_"] digit)*` continuation —
underscores only singly and strictly between digits, accumulating the
value. -/
def dwuGo : List Char → Nat → Option Nat
  | [], acc => some acc
  | c :: rest, acc =>
    if c = '_' then
      match rest with
      | [] => none
      | c2 :: rest2 =>
        match uniDigitVal c2 with
        | some d => dwuGo rest2 (10 * acc + d)
        | none => none
    else
      match uniDigitVal c with
      | some d => dwuGo rest (10 * acc + d)
      | none => none

/-- A nonempty digit group with underscores between digits. -/
def pyIntDigits : List Char → Option Nat
  | [] => none
  | c :: rest =>
    match uniDigitVal c with
    | some d => dwuGo rest d
    | none => none

/-- Python `int(s)` on the day substrings this parser can produce:
optional surrounding whitespace, an optional `+`, then Unicode decimal
digits with single underscores between digits. -/
def pyInt (cs : List Char) : Option Nat :=
  pyIntDigits (dropSign (stripWS cs))

/-- The `%H` field pattern `2[0-3]|[0-1]\d|\d` followed by `int()` of the
matched text. A two-character part between separators must be consumed by
one of the two-character alternatives; literal ranges are ASCII, `\d` is
any Unicode decimal digit. -/
def fieldH : List Char → Option Nat
  | [c] => uniDigitVal c
  | [c1, c2] =>
    if c1 = '2' then
      if c2 ∈ ['0', '1', '2', '3'] then some (20 + (c2.toNat - 48)) else none
    else if c1 ∈ ['0', '1'] then
      match uniDigitVal c2 with
      | some d => some (10 * (c1.toNat - 48) + d)
      | none => none
    else none
  | _ => none

/-- The `%M` field pattern `[0-5]\d|\d` followed by `int()`. -/
def fieldM : List Char → Option Nat
  | [c] => uniDigitVal c
  | [c1, c2] =>
    if c1 ∈ ['0', '1', '2', '3', '4', '5'] then
      match uniDigitVal c2 with
      | some d => some (10 * (c1.toNat - 48) + d)
      | none => none
    else none
  | _ => none

/-- The `%S` field pattern `6[0-1]|[0-5]\d|\d` followed by `int()`. The
leap forms 60 and 61 match here; the `datetime` constructor rejects them
afterwards. -/
def fieldS : List Char → Option Nat
  | [c] => uniDigitVal c
  | [c1, c2] =>
    if c1 = '6' then
      if c2 ∈ ['0', '1'] then some (60 + (c2.toNat - 48)) else none
    else if c1 ∈ ['0', '1', '2', '3', '4', '5'] then
      match uniDigitVal c2 with
      | some d => some (10 * (c1.toNat - 48) + d)
      | none => none
    else none
  | _ => none

/-- Python `str.split(sep)` for a one-character separator. -/
def splitOnChar (c : Char) : List Char → List (List Char)
  | [] => [[]]
  | x :: xs =>
    if x = c then [] :: splitOnChar c xs
    else
      match splitOnChar c xs with
      | [] => [[x]]
      | p :: ps => (x :: p) :: ps

/-- Inverse of `splitOnChar`: interleave the separator back. -/
def joinSep (c : Char) : List (List Char) → List Char
  | [] => []
  | [p] => p
  | p :: ps => p ++ c :: joinSep c ps

/-- `datetime.datetime.strptime(s, "%H:%M:%S")`, reduced to the fields the
caller reads. The field regexes match (the whole string must be
consumed); then the `datetime` constructor rejects a second of 60 or 61
(hour and minute are already within its ranges by their patterns). -/
def strptimeHMS (cs : List Char) : Except String (Nat × Nat × Nat) :=
  match splitOnChar ':' cs with
  | [a, b, c] =>
    match fieldH a, fieldM b, fieldS c with
    | some h, some m, some s =>
      if 60 ≤ s then .error "second must be in 0..59" else .ok (h, m, s)
    | _, _, _ => .error "time data does not match format"
  | _ => .error "time data does not match format"

/-- `datetime.datetime.strptime(s, "%M:%S")`, reduced to minute and
second, with the same constructor check on the second. -/
def strptimeMS (cs : List Char) : Except String (Nat × Nat) :=
  match splitOnChar ':' cs with
  | [b, c] =>
    match fieldM b, fieldS c with
    | some m, some s =>
      if 60 ≤ s then .error "second must be in 0..59" else .ok (m, s)
    | _, _ => .error "time data does not match format"
  | _ => .error "time data does not match format"

/-- Body of the `try:` block of `_parse_slurm_time`, producing total seconds.
The branch structure follows the source: a `-` selects the days form
(`strptime` on the remainder runs before `int` on the days part), otherwise
the number of `:` selects `%H:%M:%S` or `%M:%S`. -/
def parseCore (cs : List Char) : Except String Nat :=
  if cs.contains '-' then
    match splitOnChar '-' cs with
    | [days, rest] =>
      match strptimeHMS rest with
      | .error e => .error e
      | .ok (h, m, s) =>
        match pyInt days with
        | some d => .ok (86400 * d + 3600 * h + 60 * m + s)
        | none => .error "invalid literal for int with base 10"
    | _ => .error "too many values to unpack"
  else if (cs.count ':') = 2 then
    match strptimeHMS cs with
    | .ok (h, m, s) => .ok (3600 * h + 60 * m + s)
    | .error e => .error e
  else if (cs.count ':') = 1 then
    match strptimeMS cs with
    | .ok (m, s) => .ok (60 * m + s)
    | .error e => .error e
  else
    .error "Unknown time format."

/-- `_parse_slurm_time`: every failure of the body is wrapped in a message
quoting the offending input string. Result in whole seconds. -/
def parseSlurmTime (t : String) : Except String Nat :=
  match parseCore t.data with
  | .ok n => .ok n
  | .error e => .error ("Could not parse time '" ++ t ++ "'.\n" ++ e)

/-! ## SlurmArgs and Step construction -/

/-- `SlurmArgs`: the structured resource-request descriptor. `mail_type`
members are the `MailType` string values. -/
structure SlurmArgs : Type where
  time : String
  partition : String
  gpus_per_node : Int := 0
  nodes : Int := 1
  cpus_per_task : Option Int := none
  cpus_per_gpu : Option Int := none
  mem_gb : Option Int := none
  account : Option String := none
  cluster : Option String := none
  mail_type : List String := []
  mail_user : Option String := none
  additional_params : PyDict := []

/-- Python `",".join(l)`. -/
def joinComma : List String → String
  | [] => ""
  | [x] => x
  | x :: xs => x ++ "," ++ joinComma xs

/-- `SlurmArgs.to_submitit_dict`. -/
def SlurmArgs.toSubmititDict (a : SlurmArgs) : PyDict :=
  let args : PyDict :=
    [("slurm_time", .vstr a.time), ("slurm_partition", .vstr a.partition),
     ("gpus_per_node", .vint a.gpus_per_node)]
  let args := match a.cpus_per_task with
    | some v => dictSet args "cpus_per_task" (.vint v)
    | none => args
  let args := match a.mem_gb with
    | some v => dictSet args "mem_gb" (.vint v)
    | none => args
  let additional : PyDict := []
  let additional := if a.nodes ≠ 1 then dictSet additional "nodes" (.vint a.nodes) else additional
  let additional := match a.cpus_per_gpu with
    | some v => dictSet additional "cpus_per_gpu" (.vint v)
    | none => additional
  let additional := match a.account with
    | some v => dictSet additional "account" (.vstr v)
    | none => additional
  let additional := match a.cluster with
    | some v => dictSet additional "clusters" (.vstr v)
    | none => additional
  let additional := if a.mail_type ≠ [] then
      dictSet additional "mail_type" (.vstr (joinComma a.mail_type))
    else additional
  let additional := match a.mail_user with
    | some v => dictSet additional "mail_user" (.vstr v)
    | none => additional
  let additional := dictUpdate additional a.additional_params
  if additional.isEmpty then args
  else dictSet args "slurm_additional_parameters" (.vdict additional)

/-- The `slurm_args` argument of `Step.__init__`: a `SlurmArgs` instance or
a raw submitit-compatible dict. -/
inductive SlurmSpec : Type where
  | structured : SlurmArgs → SlurmSpec
  | raw : PyDict → SlurmSpec

/-- A constructed `Step`, with the fields the traversals read. The wrapped
callable and its positional/keyword arguments are an opaque payload the
embedding does not inspect, so they are not carried. `job` is the
write-once job-handle slot (`None` until submission), `duration` the
`timedelta` parsed at construction, in seconds. -/
structure StepData : Type where
  name : String
  slurm_args : SlurmSpec
  job : Option Nat := none
  duration : Int := 0

/-- `Step._get_time`. -/
def getTime (name : String) (sa : SlurmSpec) : Except String String :=
  match sa with
  | .structured a => .ok a.time
  | .raw m =>
    match dictGet m "slurm_time" with
    | none => .error ("Step '" ++ name ++ "': raw dict must include 'slurm_time'")
    | some v => .ok (pyStr v)

/-- `Step._to_submitit_dict`. A raw dict is shallow-copied (`dict(...)`),
which under the value semantics of this model is the dict itself. -/
def toSubmititDict (sa : SlurmSpec) : PyDict :=
  match sa with
  | .structured a => a.toSubmititDict
  | .raw m => m

/-- `Step.__init__`: stores the fields and eagerly parses the time budget
(`self.duration = _parse_slurm_time(self._get_time())`); any failure of
`_get_time` or of the parser aborts construction. -/
def mkStep (name : String) (sa : SlurmSpec) : Except String StepData :=
  match getTime name sa with
  | .error e => .error e
  | .ok t =>
    match parseSlurmTime t with
    | .error e => .error e
    | .ok secs => .ok { name := name, slurm_args := sa, job := none, duration := (secs : Int) }

/-! ## The Node tree and duration estimation -/

/-- The `Node` hierarchy: `Step` leaf, `Chain` and `Parallel` composites. -/
inductive Node : Type where
  | step : StepData → Node
  | chain : List Node → Node
  | parallel : List Node → Node

/-- Python `sum(l, timedelta(0))`: left fold of addition from zero. -/
def intSum (l : List Int) : Int := l.foldl (· + ·) 0

/-- Python `max(l, default=timedelta(0))`: the maximum of the elements, or
zero only when there are none. -/
def pyMax (l : List Int) : Int :=
  match l with
  | [] => 0
  | x :: xs => xs.foldl max x

mutual
/-- `Node.get_duration`: a Step returns its stored parsed duration, a Chain
the sum of its children's durations, a Parallel their maximum. -/
def getDuration : Node → Int
  | .step s => s.duration
  | .chain ns => intSum (childDurations ns)
  | .parallel ns => pyMax (childDurations ns)

/-- Durations of a child list, in order. -/
def childDurations : List Node → List Int
  | [] => []
  | n :: ns => getDuration n :: childDurations ns
end

/-! ## The submission traversal `Plan.submit._walk` -/

/-- Python `":".join(l)`. -/
def joinColon : List String → String
  | [] => ""
  | [x] => x
  | x :: xs => x ++ ":" ++ joinColon xs

/-- `str(job.job_id)`: decimal rendering of a model job id. -/
def jobIdStr (j : Nat) : String := toString j

/-- The `afterok` dependency constraint string built for a nonempty
predecessor list: `f"afterok:{':'.join(parent_ids)}"`. -/
def depString (parents : List Nat) : String :=
  "afterok:" ++ joinColon (parents.map jobIdStr)

/-- Mutable context of `Plan.submit`: the executor's fresh-id counter and
the ordered record of submissions so far (each id with the parameter dict
passed to `executor.update_parameters` for it; this list also plays the
role of `all_jobs`). -/
structure SubmitState : Type where
  nextId : Nat := 0
  submitted : List (Nat × PyDict) := []

/-- `params = node._to_submitit_dict()` followed by the job-name default:
`if "slurm_job_name" not in params: params["slurm_job_name"] = self.name`
(`self` is the Plan, so the Plan's name). -/
def namedParams (planName : String) (s : StepData) : PyDict :=
  if dictContains (toSubmititDict s.slurm_args) "slurm_job_name" then
    toSubmititDict s.slurm_args
  else dictSet (toSubmititDict s.slurm_args) "slurm_job_name" (.vstr planName)

/-- The dependency augmentation: for a nonempty predecessor list,
`params.setdefault("slurm_additional_parameters", {})["dependency"] = dep`
(a `TypeError` when the existing entry is not a dict); for an empty one
the payload is left as `namedParams` built it. -/
def augParams (planName : String) (s : StepData) (parents : List Nat) :
    Except String PyDict :=
  if parents.isEmpty then .ok (namedParams planName s)
  else
    match dictGet (namedParams planName s) "slurm_additional_parameters" with
    | none =>
      .ok (dictSet (namedParams planName s) "slurm_additional_parameters"
            (.vdict [("dependency", .vstr (depString parents))]))
    | some (.vdict ad) =>
      .ok (dictSet (namedParams planName s) "slurm_additional_parameters"
            (.vdict (dictSet ad "dependency" (.vstr (depString parents)))))
    | some _ => .error "TypeError: object does not support item assignment"

/-- The Step branch of `_walk`: build and augment the payload, invoke the
executor (which hands out the next job id), store the fresh job handle on
the Step unconditionally, record the job in `all_jobs`, and return the
singleton job list. -/
def stepSubmit (planName : String) (s : StepData) (parents : List Nat)
    (st : SubmitState) : Except String (List Nat × Node × SubmitState) :=
  match augParams planName s parents with
  | .error e => .error e
  | .ok params =>
    .ok ([st.nextId], .step { s with job := some st.nextId },
         { nextId := st.nextId + 1, submitted := st.submitted ++ [(st.nextId, params)] })

mutual
/-- `_walk(node, parent_jobs)`: returns the completion jobs, the node with
its Step slots updated (Python mutates the Steps in place), and the
updated executor/submission state. -/
def walkNode (planName : String) : Node → List Nat → SubmitState →
    Except String (List Nat × Node × SubmitState)
  | .step s, parents, st => stepSubmit planName s parents st
  | .chain ns, parents, st =>
    match walkChain planName ns parents st with
    | .error e => .error e
    | .ok (r, ns2, st2) => .ok (r, .chain ns2, st2)
  | .parallel ns, parents, st =>
    match walkParallel planName ns parents st with
    | .error e => .error e
    | .ok (r, ns2, st2) => .ok (r, .parallel ns2, st2)

/-- The Chain branch: `current_deps` threads through the children; an empty
chain returns the incoming `parent_jobs`. -/
def walkChain (planName : String) : List Node → List Nat → SubmitState →
    Except String (List Nat × List Node × SubmitState)
  | [], current, st => .ok (current, [], st)
  | n :: ns, current, st =>
    match walkNode planName n current st with
    | .error e => .error e
    | .ok (r, n2, st2) =>
      match walkChain planName ns r st2 with
      | .error e => .error e
      | .ok (rs, ns2, st3) => .ok (rs, n2 :: ns2, st3)

/-- The Parallel branch: every child is walked with the same `parent_jobs`
and the returned job lists are concatenated (`results.extend`). -/
def walkParallel (planName : String) : List Node → List Nat → SubmitState →
    Except String (List Nat × List Node × SubmitState)
  | [], _, st => .ok ([], [], st)
  | n :: ns, parents, st =>
    match walkNode planName n parents st with
    | .error e => .error e
    | .ok (r, n2, st2) =>
      match walkParallel planName ns parents st2 with
      | .error e => .error e
      | .ok (rs, ns2, st3) => .ok (r ++ rs, n2 :: ns2, st3)
end

/-- `Plan.submit`: walk the root from an empty predecessor list with a
fresh executor state. -/
def planSubmit (planName : String) (root : Node) :
    Except String (List Nat × Node × SubmitState) :=
  walkNode planName root [] {}

/-! ## The wait traversal `Plan._wait_node` -/

/-- Outcome of waiting on a subtree: the job handles whose results were
retrieved (in the order their `result()` calls were issued), and the
overall outcome (`ok` or the exception that propagated). -/
structure WaitRes : Type where
  observed : List Nat
  outcome : Except String Unit

/-- First failure by structural position among the branch outcomes: what
`for f in futures: f.result()` raises after `wait(futures)` returned. -/
def firstFailure : List (Except String Unit) → Except String Unit
  | [] => .ok ()
  | .error e :: _ => .error e
  | .ok _ :: rest => firstFailure rest

mutual
/-- `Plan._wait_node`, parameterised by the scheduler's result function
`R` (what `job.result()` does for each job id). A Step with an empty slot
raises the not-submitted error; a Chain waits on its children in order and
stops at the first exception; a Parallel dispatches one wait task per
child onto a pool sized to the child count (a `ValueError` for zero
children), lets all of them run to completion, and then propagates the
first failure by position. -/
def waitNode (R : Nat → Except String Unit) : Node → WaitRes
  | .step s =>
    match s.job with
    | none => ⟨[], .error ("Step '" ++ s.name ++ "' has not been submitted yet")⟩
    | some j => ⟨[j], R j⟩
  | .chain ns => waitChain R ns
  | .parallel ns =>
    if ns.isEmpty then ⟨[], .error "ValueError: max_workers must be greater than 0"⟩
    else
      let rs := waitTasks R ns
      ⟨(rs.map WaitRes.observed).flatten, firstFailure (rs.map WaitRes.outcome)⟩

/-- Sequential waiting of a Chain's children. -/
def waitChain (R : Nat → Except String Unit) : List Node → WaitRes
  | [] => ⟨[], .ok ()⟩
  | n :: ns =>
    let r := waitNode R n
    match r.outcome with
    | .error e => ⟨r.observed, .error e⟩
    | .ok _ =>
      let rest := waitChain R ns
      ⟨r.observed ++ rest.observed, rest.outcome⟩

/-- One wait task per Parallel child; every task runs to completion. -/
def waitTasks (R : Nat → Except String Unit) : List Node → List WaitRes
  | [] => []
  | n :: ns => waitNode R n :: waitTasks R ns
end

mutual
/-- The Step leaves of a subtree, in depth-first order. -/
def stepsOf : Node → List StepData
  | .step s => [s]
  | .chain ns => stepsOfList ns
  | .parallel ns => stepsOfList ns

/-- The Step leaves under a child list, in order. -/
def stepsOfList : List Node → List StepData
  | [] => []
  | n :: ns => stepsOf n ++ stepsOfList ns
end

/-! ## Decimal rendering, for stating the parser roundtrip -/

/-- The character of a decimal digit. -/
def digitChar (n : Nat) : Char := Char.ofNat (48 + n)

/-- Worker for `natDigits`, structurally recursive on a fuel bound. -/
def natDigitsGo : Nat → Nat → List Char → List Char
  | 0, _, acc => acc
  | fuel + 1, n, acc =>
    if n < 10 then digitChar n :: acc
    else natDigitsGo fuel (n / 10) (digitChar (n % 10) :: acc)

/-- Decimal digit characters of a natural number, most significant first. -/
def natDigits (n : Nat) : List Char := natDigitsGo (n + 1) n []

/-- Two-digit zero-padded rendering of a number below 100 (the `HH`, `MM`,
`SS` shapes of the spec examples). -/
def fmt2 (n : Nat) : List Char :=
  if n < 10 then ['0', digitChar n] else natDigits n

/-! ## Helper lemmas -/

theorem childDurations_eq_map (ns : List Node) :
    childDurations ns = ns.map getDuration := by
  induction ns with
  | nil => simp [childDurations]
  | cons n ns ih => simp [childDurations, ih]

theorem foldl_add_eq_add_sum (l : List Int) : ∀ a : Int, l.foldl (· + ·) a = a + l.sum := by
  induction l with
  | nil => simp
  | cons x xs ih => intro a; simp [List.foldl_cons, ih, add_assoc]

theorem intSum_eq_sum (l : List Int) : intSum l = l.sum := by
  simp [intSum, foldl_add_eq_add_sum]

theorem le_foldl_max (xs : List Int) : ∀ a : Int, a ≤ xs.foldl max a := by
  induction xs with
  | nil => simp
  | cons x xs ih => intro a; exact le_trans (le_max_left a x) (ih (max a x))

theorem mem_le_foldl_max (xs : List Int) : ∀ a x : Int, x ∈ xs → x ≤ xs.foldl max a := by
  induction xs with
  | nil => intro a x hx; cases hx
  | cons y ys ih =>
    intro a x hx
    rcases List.mem_cons.mp hx with h | h
    · subst h; exact le_trans (le_max_right a x) (le_foldl_max ys (max a x))
    · exact ih (max a y) x h

theorem foldl_max_mem (xs : List Int) : ∀ a : Int, xs.foldl max a = a ∨ xs.foldl max a ∈ xs := by
  induction xs with
  | nil => intro a; left; rfl
  | cons y ys ih =>
    intro a
    have hfold : (y :: ys).foldl max a = ys.foldl max (max a y) := rfl
    rcases ih (max a y) with h | h
    · rcases max_choice a y with hm | hm
      · left; rw [hfold, h, hm]
      · right; rw [hfold, h, hm]; exact List.mem_cons_self y ys
    · right; rw [hfold]; exact List.mem_cons_of_mem y h

theorem le_pyMax (l : List Int) (x : Int) (hx : x ∈ l) : x ≤ pyMax l := by
  match l with
  | y :: ys =>
    rcases List.mem_cons.mp hx with h | h
    · subst h; exact le_foldl_max ys x
    · exact mem_le_foldl_max ys y x h

theorem pyMax_mem (l : List Int) (hl : l ≠ []) : pyMax l ∈ l := by
  match l with
  | y :: ys =>
    rcases foldl_max_mem ys y with h | h
    · simp [pyMax, h]
    · exact List.mem_cons_of_mem y h

mutual
theorem getDuration_nonneg : ∀ n : Node,
    (∀ s ∈ stepsOf n, 0 ≤ s.duration) → 0 ≤ getDuration n
  | .step s, h => h s (by simp [stepsOf])
  | .chain ns, h => by
    have hd := childDurationsNonneg ns (by simpa [stepsOf] using h)
    have : ∀ d ∈ childDurations ns, 0 ≤ d := hd
    simp only [getDuration, intSum_eq_sum]
    exact List.sum_nonneg this
  | .parallel ns, h => by
    have hd := childDurationsNonneg ns (by simpa [stepsOf] using h)
    rcases Decidable.em (childDurations ns = []) with he | he
    · simp [getDuration, he, pyMax]
    · exact le_trans (le_refl 0)
        (le_of_eq_of_le rfl (hd _ (pyMax_mem _ he)))

theorem childDurationsNonneg : ∀ ns : List Node,
    (∀ s ∈ stepsOfList ns, 0 ≤ s.duration) → ∀ d ∈ childDurations ns, 0 ≤ d
  | [], _, d, hd => by simp [childDurations] at hd
  | n :: ns, h, d, hd => by
    simp only [childDurations, List.mem_cons] at hd
    rcases hd with hd | hd
    · subst hd
      exact getDuration_nonneg n (fun s hs => h s (by simp [stepsOfList, hs]))
    · exact childDurationsNonneg ns (fun s hs => h s (by simp [stepsOfList, hs])) d hd
end

theorem mkStep_ok (name : String) (sa : SlurmSpec) (st : StepData)
    (h : mkStep name sa = .ok st) :
    ∃ t secs, getTime name sa = .ok t ∧ parseSlurmTime t = .ok secs ∧
      st = { name := name, slurm_args := sa, job := none, duration := (secs : Int) } := by
  unfold mkStep at h
  cases hg : getTime name sa with
  | error e => simp [hg] at h
  | ok t =>
    simp only [hg] at h
    cases hp : parseSlurmTime t with
    | error e => simp [hp] at h
    | ok secs =>
      simp only [hp] at h
      exact ⟨t, secs, rfl, hp, (Except.ok.inj h).symm⟩

/-! ## Claim theorems -/

/-- Claim C3: a Chain's estimated duration is the sum of its children's
durations (zero when empty); a Parallel's is the maximum of its children's
durations (zero when empty); a Step's is the duration parsed from its time
budget at construction. -/
theorem c3_duration_estimation :
    (∀ ns : List Node, getDuration (.chain ns) = (ns.map getDuration).sum) ∧
    getDuration (.chain []) = 0 ∧
    (∀ ns : List Node, ns ≠ [] →
      (∀ n ∈ ns, getDuration n ≤ getDuration (.parallel ns)) ∧
      ∃ n ∈ ns, getDuration (.parallel ns) = getDuration n) ∧
    getDuration (.parallel []) = 0 ∧
    (∀ name sa st t, mkStep name sa = .ok st → getTime name sa = .ok t →
      ∃ secs, parseSlurmTime t = .ok secs ∧ getDuration (.step st) = (secs : Int)) := by
  refine ⟨?_, ?_, ?_, ?_, ?_⟩
  · intro ns; simp [getDuration, childDurations_eq_map, intSum_eq_sum]
  · simp [getDuration, childDurations, intSum]
  · intro ns hns
    constructor
    · intro n hn
      have : getDuration n ∈ childDurations ns := by
        rw [childDurations_eq_map]; exact List.mem_map_of_mem getDuration hn
      exact le_pyMax _ _ this
    · have hne : childDurations ns ≠ [] := by
        rw [childDurations_eq_map]; simpa using hns
      have hmem := pyMax_mem _ hne
      rw [childDurations_eq_map] at hmem
      rcases List.mem_map.mp hmem with ⟨n, hn, heq⟩
      refine ⟨n, hn, ?_⟩
      have hpar : getDuration (.parallel ns) = pyMax (ns.map getDuration) := by
        simp [getDuration, childDurations_eq_map]
      rw [hpar]; exact heq.symm
  · simp [getDuration, childDurations, pyMax]
  · intro name sa st t hmk hgt
    rcases mkStep_ok name sa st hmk with ⟨t2, secs, ht2, hsecs, hst⟩
    rw [hgt] at ht2
    cases Except.ok.inj ht2
    exact ⟨secs, hsecs, by rw [hst]; simp [getDuration]⟩

/-- Witness for C3 at concrete inputs: a two-step parallel, and a Step
built from the budget string 00:45:00. -/
theorem c3_duration_estimation_witness :
    (∀ n ∈ [Node.step ⟨"a", .raw [], none, 3⟩, Node.step ⟨"b", .raw [], none, 7⟩],
      getDuration n ≤ getDuration (.parallel
        [Node.step ⟨"a", .raw [], none, 3⟩, Node.step ⟨"b", .raw [], none, 7⟩])) ∧
    (∃ secs, parseSlurmTime "00:45:00" = .ok secs ∧
      getDuration (.step { name := "s",
                           slurm_args := .raw [("slurm_time", .vstr "00:45:00")],
                           job := none, duration := 2700 }) = (secs : Int)) := by
  refine ⟨(c3_duration_estimation.2.2.1 _ (by simp)).1, ?_⟩
  exact c3_duration_estimation.2.2.2.2 "s" (.raw [("slurm_time", .vstr "00:45:00")])
    { name := "s", slurm_args := .raw [("slurm_time", .vstr "00:45:00")],
      job := none, duration := 2700 } "00:45:00" rfl rfl

/-- Claim C9: every successfully constructed Step has a non-negative
duration; any tree whose Steps all carry non-negative durations has a
non-negative estimated duration; and a Chain's or Parallel's duration is a
pure function of the list of its children's durations. -/
theorem c9_duration_invariants :
    (∀ name sa st, mkStep name sa = .ok st → 0 ≤ st.duration) ∧
    (∀ n : Node, (∀ s ∈ stepsOf n, 0 ≤ s.duration) → 0 ≤ getDuration n) ∧
    (∀ ns ms : List Node, ns.map getDuration = ms.map getDuration →
      getDuration (.chain ns) = getDuration (.chain ms) ∧
      getDuration (.parallel ns) = getDuration (.parallel ms)) := by
  refine ⟨?_, getDuration_nonneg, ?_⟩
  · intro name sa st h
    rcases mkStep_ok name sa st h with ⟨t, secs, _, _, hst⟩
    rw [hst]
    exact Int.natCast_nonneg secs
  · intro ns ms h
    constructor <;> simp [getDuration, childDurations_eq_map, h]

/-- Witness for C9 at concrete inputs: a constructed Step, a small tree,
and two distinct child lists with equal duration lists. -/
theorem c9_duration_invariants_witness :
    (0 ≤ (2700 : Int)) ∧
    (0 ≤ getDuration (.chain [.step ⟨"a", .raw [], none, 4⟩])) ∧
    getDuration (.parallel [.step ⟨"x", .raw [], none, 5⟩]) =
      getDuration (.parallel [.step ⟨"y", .raw [], none, 5⟩]) := by
  refine ⟨?_, ?_, ?_⟩
  · exact c9_duration_invariants.1 "s" (.raw [("slurm_time", .vstr "00:45:00")])
      { name := "s", slurm_args := .raw [("slurm_time", .vstr "00:45:00")],
        job := none, duration := 2700 } rfl
  · exact c9_duration_invariants.2.1 _ (by simp [stepsOf, stepsOfList])
  · exact (c9_duration_invariants.2.2 [.step ⟨"x", .raw [], none, 5⟩]
      [.step ⟨"y", .raw [], none, 5⟩] rfl).2

theorem dictGet_dictSet_self (m : PyDict) (k : String) (v : PyVal) :
    dictGet (dictSet m k v) k = some v := by
  induction m with
  | nil => simp [dictSet, dictGet]
  | cons kv rest ih =>
    by_cases h : kv.1 = k
    · simp [dictSet, dictGet, h]
    · simp [dictSet, dictGet, h, ih]

theorem dictGet_dictSet_ne (m : PyDict) (k k2 : String) (v : PyVal) (h : k ≠ k2) :
    dictGet (dictSet m k v) k2 = dictGet m k2 := by
  induction m with
  | nil => simp [dictSet, dictGet, h]
  | cons kv rest ih =>
    by_cases h2 : kv.1 = k
    · simp [dictSet, dictGet, h2, h]
    · simp only [dictSet, h2, if_false]
      by_cases h3 : kv.1 = k2
      · simp [dictGet, h3]
      · simp [dictGet, h3, ih]

/-- Inversion for a successful Step submission: the returned jobs, the
updated Step and the updated state are forced; only the recorded payload
varies with the dependency augmentation. -/
theorem stepSubmit_ok (pn : String) (s : StepData) (parents : List Nat)
    (st : SubmitState) (r : List Nat) (t : Node) (st2 : SubmitState)
    (h : stepSubmit pn s parents st = .ok (r, t, st2)) :
    ∃ p, r = [st.nextId] ∧ t = .step { s with job := some st.nextId } ∧
      st2 = ⟨st.nextId + 1, st.submitted ++ [(st.nextId, p)]⟩ := by
  cases haug : augParams pn s parents with
  | error e => simp [stepSubmit, haug] at h
  | ok p =>
    simp only [stepSubmit, haug] at h
    injection h with h2
    obtain ⟨hr, h3⟩ := Prod.mk.inj h2
    obtain ⟨ht, hst⟩ := Prod.mk.inj h3
    exact ⟨p, hr.symm, ht.symm, hst.symm⟩

/-- Claim C1: the submission traversal starts from an empty predecessor
set at the root; a Step returns the singleton of its newly created job; a
Chain threads predecessors through its children in order (an empty chain
returns the incoming predecessors unchanged) and returns its last child's
jobs; a Parallel walks every child with the same incoming predecessors and
returns the concatenation of the children's jobs. -/
theorem c1_walk_structure :
    (∀ pn root, planSubmit pn root = walkNode pn root [] {}) ∧
    (∀ pn s parents st r t st2,
      walkNode pn (.step s) parents st = .ok (r, t, st2) →
      r = [st.nextId] ∧ t = .step { s with job := some st.nextId } ∧
      st2.nextId = st.nextId + 1) ∧
    (∀ pn ns parents st r ns2 st2,
      walkChain pn ns parents st = .ok (r, ns2, st2) →
      walkNode pn (.chain ns) parents st = .ok (r, .chain ns2, st2)) ∧
    (∀ pn parents st, walkChain pn [] parents st = .ok (parents, [], st)) ∧
    (∀ pn n ns parents st r n2 st2 rs ns2 st3,
      walkNode pn n parents st = .ok (r, n2, st2) →
      walkChain pn ns r st2 = .ok (rs, ns2, st3) →
      walkChain pn (n :: ns) parents st = .ok (rs, n2 :: ns2, st3)) ∧
    (∀ pn ns parents st r ns2 st2,
      walkParallel pn ns parents st = .ok (r, ns2, st2) →
      walkNode pn (.parallel ns) parents st = .ok (r, .parallel ns2, st2)) ∧
    (∀ pn parents st, walkParallel pn [] parents st = .ok ([], [], st)) ∧
    (∀ pn n ns parents st r n2 st2 rs ns2 st3,
      walkNode pn n parents st = .ok (r, n2, st2) →
      walkParallel pn ns parents st2 = .ok (rs, ns2, st3) →
      walkParallel pn (n :: ns) parents st = .ok (r ++ rs, n2 :: ns2, st3)) := by
  refine ⟨fun pn root => rfl, ?_, ?_, fun pn parents st => rfl, ?_, ?_,
    fun pn parents st => rfl, ?_⟩
  · intro pn s parents st r t st2 h
    have h2 := stepSubmit_ok pn s parents st r t st2 h
    rcases h2 with ⟨p, hr, ht, hst⟩
    exact ⟨hr, ht, by rw [hst]⟩
  · intro pn ns parents st r ns2 st2 h
    simp [walkNode, h]
  · intro pn n ns parents st r n2 st2 rs ns2 st3 h1 h2
    simp [walkChain, h1, h2]
  · intro pn ns parents st r ns2 st2 h
    simp [walkNode, h]
  · intro pn n ns parents st r n2 st2 rs ns2 st3 h1 h2
    simp [walkParallel, h1, h2]

/-- Witness for C1 at a concrete two-step chain submission. -/
theorem c1_walk_structure_witness :
    planSubmit "p" (.chain [.step ⟨"a", .raw [("slurm_time", .vstr "00:10:00")], none, 600⟩]) =
      walkNode "p" (.chain [.step ⟨"a", .raw [("slurm_time", .vstr "00:10:00")], none, 600⟩]) [] {} ∧
    walkChain "p" [] [3] ⟨7, []⟩ = .ok ([3], [], ⟨7, []⟩) ∧
    ([0] = [(SubmitState.nextId {})] ∧
      (Node.step { name := "a", slurm_args := .raw [("slurm_time", .vstr "00:10:00")],
                   job := some 0, duration := 600 }) =
        .step { name := "a", slurm_args := .raw [("slurm_time", .vstr "00:10:00")],
                job := some ((SubmitState.nextId {})), duration := 600 } ∧
      (1 : Nat) = (SubmitState.nextId {}) + 1) := by
  refine ⟨c1_walk_structure.1 "p" _, c1_walk_structure.2.2.2.1 "p" [3] ⟨7, []⟩, ?_⟩
  exact c1_walk_structure.2.1 "p"
    ⟨"a", .raw [("slurm_time", .vstr "00:10:00")], none, 600⟩ [] {} _ _ _ rfl

theorem augParams_empty (pn : String) (s : StepData) :
    augParams pn s [] = .ok (namedParams pn s) := rfl

theorem augParams_ok_dep (pn : String) (s : StepData) (parents : List Nat)
    (p : PyDict) (hne : parents ≠ [])
    (h : augParams pn s parents = .ok p) :
    ∃ ad, dictGet p "slurm_additional_parameters" = some (.vdict ad) ∧
      dictGet ad "dependency" = some (.vstr (depString parents)) := by
  unfold augParams at h
  rw [if_neg (by simpa using hne)] at h
  split at h
  · refine ⟨[("dependency", .vstr (depString parents))], ?_, by simp [dictGet]⟩
    rw [← Except.ok.inj h]
    exact dictGet_dictSet_self ..
  · rename_i ad had
    refine ⟨dictSet ad "dependency" (.vstr (depString parents)), ?_, ?_⟩
    · rw [← Except.ok.inj h]
      exact dictGet_dictSet_self ..
    · exact dictGet_dictSet_self ..
  · exact Except.noConfusion h

theorem augParams_ok_jobName (pn : String) (s : StepData) (parents : List Nat)
    (p : PyDict) (h : augParams pn s parents = .ok p) :
    dictGet p "slurm_job_name" = dictGet (namedParams pn s) "slurm_job_name" := by
  unfold augParams at h
  split at h
  · rw [← Except.ok.inj h]
  · split at h
    · rw [← Except.ok.inj h]
      exact dictGet_dictSet_ne _ _ _ _ (by decide)
    · rw [← Except.ok.inj h]
      exact dictGet_dictSet_ne _ _ _ _ (by decide)
    · exact Except.noConfusion h

theorem namedParams_jobName_isSome (pn : String) (s : StepData) :
    (dictGet (namedParams pn s) "slurm_job_name").isSome = true := by
  unfold namedParams
  split
  · rename_i hc
    simpa [dictContains] using hc
  · rw [dictGet_dictSet_self]
    rfl

theorem namedParams_keeps (pn : String) (s : StepData)
    (h : dictContains (toSubmititDict s.slurm_args) "slurm_job_name" = true) :
    namedParams pn s = toSubmititDict s.slurm_args := by
  unfold namedParams
  rw [if_pos h]

theorem namedParams_defaults (pn : String) (s : StepData)
    (h : dictContains (toSubmititDict s.slurm_args) "slurm_job_name" = false) :
    dictGet (namedParams pn s) "slurm_job_name" = some (.vstr pn) := by
  unfold namedParams
  rw [if_neg (by simp [h])]
  exact dictGet_dictSet_self ..

theorem walkNode_chain_ok (pn : String) (ns : List Node) (parents : List Nat)
    (st : SubmitState) (r : List Nat) (t : Node) (st2 : SubmitState)
    (h : walkNode pn (.chain ns) parents st = .ok (r, t, st2)) :
    ∃ ns2, walkChain pn ns parents st = .ok (r, ns2, st2) ∧ t = .chain ns2 := by
  unfold walkNode at h
  cases hw : walkChain pn ns parents st with
  | error e => rw [hw] at h; exact Except.noConfusion h
  | ok v =>
    rcases v with ⟨r2, ns2, st3⟩
    rw [hw] at h
    simp only at h
    injection h with h2
    obtain ⟨hr, h3⟩ := Prod.mk.inj h2
    obtain ⟨ht, hst⟩ := Prod.mk.inj h3
    refine ⟨ns2, ?_, ht.symm⟩
    rw [← hr, ← hst]

theorem walkNode_parallel_ok (pn : String) (ns : List Node) (parents : List Nat)
    (st : SubmitState) (r : List Nat) (t : Node) (st2 : SubmitState)
    (h : walkNode pn (.parallel ns) parents st = .ok (r, t, st2)) :
    ∃ ns2, walkParallel pn ns parents st = .ok (r, ns2, st2) ∧ t = .parallel ns2 := by
  unfold walkNode at h
  cases hw : walkParallel pn ns parents st with
  | error e => rw [hw] at h; exact Except.noConfusion h
  | ok v =>
    rcases v with ⟨r2, ns2, st3⟩
    rw [hw] at h
    simp only at h
    injection h with h2
    obtain ⟨hr, h3⟩ := Prod.mk.inj h2
    obtain ⟨ht, hst⟩ := Prod.mk.inj h3
    refine ⟨ns2, ?_, ht.symm⟩
    rw [← hr, ← hst]

theorem walkChain_cons_ok (pn : String) (n : Node) (ns : List Node)
    (parents : List Nat) (st : SubmitState) (rs : List Nat) (ns2 : List Node)
    (st3 : SubmitState)
    (h : walkChain pn (n :: ns) parents st = .ok (rs, ns2, st3)) :
    ∃ r n2 st2 ns3, walkNode pn n parents st = .ok (r, n2, st2) ∧
      walkChain pn ns r st2 = .ok (rs, ns3, st3) ∧ ns2 = n2 :: ns3 := by
  unfold walkChain at h
  cases hw : walkNode pn n parents st with
  | error e => rw [hw] at h; exact Except.noConfusion h
  | ok v =>
    rcases v with ⟨r, n2, st2⟩
    rw [hw] at h
    simp only at h
    cases hc : walkChain pn ns r st2 with
    | error e => rw [hc] at h; exact Except.noConfusion h
    | ok w =>
      rcases w with ⟨rs2, ns3, st4⟩
      rw [hc] at h
      simp only at h
      injection h with h2
      obtain ⟨hr, h3⟩ := Prod.mk.inj h2
      obtain ⟨ht, hst⟩ := Prod.mk.inj h3
      refine ⟨r, n2, st2, ns3, rfl, ?_, ht.symm⟩
      rw [← hr, ← hst]
      exact hc

theorem walkParallel_cons_ok (pn : String) (n : Node) (ns : List Node)
    (parents : List Nat) (st : SubmitState) (rs : List Nat) (ns2 : List Node)
    (st3 : SubmitState)
    (h : walkParallel pn (n :: ns) parents st = .ok (rs, ns2, st3)) :
    ∃ r n2 st2 rs2 ns3, walkNode pn n parents st = .ok (r, n2, st2) ∧
      walkParallel pn ns parents st2 = .ok (rs2, ns3, st3) ∧
      ns2 = n2 :: ns3 ∧ rs = r ++ rs2 := by
  unfold walkParallel at h
  cases hw : walkNode pn n parents st with
  | error e => rw [hw] at h; exact Except.noConfusion h
  | ok v =>
    rcases v with ⟨r, n2, st2⟩
    rw [hw] at h
    simp only at h
    cases hc : walkParallel pn ns parents st2 with
    | error e => rw [hc] at h; exact Except.noConfusion h
    | ok w =>
      rcases w with ⟨rs2, ns3, st4⟩
      rw [hc] at h
      simp only at h
      injection h with h2
      obtain ⟨hr, h3⟩ := Prod.mk.inj h2
      obtain ⟨ht, hst⟩ := Prod.mk.inj h3
      refine ⟨r, n2, st2, rs2, ns3, rfl, ?_, ht.symm, hr.symm⟩
      rw [← hst]
      exact hc

mutual
theorem walkNode_jobName : ∀ (pn : String) (n : Node) (parents : List Nat)
    (st : SubmitState) (r : List Nat) (t : Node) (st2 : SubmitState),
    walkNode pn n parents st = .ok (r, t, st2) →
    (∀ jp ∈ st.submitted, dictContains jp.2 "slurm_job_name" = true) →
    ∀ jp ∈ st2.submitted, dictContains jp.2 "slurm_job_name" = true
  | pn, .step s, parents, st, r, t, st2, h, hpre => by
    have hs : stepSubmit pn s parents st = .ok (r, t, st2) := h
    cases haug : augParams pn s parents with
    | error e => rw [stepSubmit, haug] at hs; exact Except.noConfusion hs
    | ok p =>
      rcases stepSubmit_ok pn s parents st r t st2 hs with ⟨p2, _, _, hst⟩
      have hp2 : p2 = p := by
        rw [stepSubmit, haug] at hs
        injection hs with h2
        obtain ⟨_, h3⟩ := Prod.mk.inj h2
        obtain ⟨_, hse⟩ := Prod.mk.inj h3
        rw [hst] at hse
        have := congrArg SubmitState.submitted hse
        simp only at this
        have := List.append_inj_right this.symm rfl
        exact (Prod.mk.inj (List.cons.inj this).1).2
      intro jp hjp
      rw [hst] at hjp
      simp only [List.mem_append, List.mem_singleton] at hjp
      rcases hjp with hjp | hjp
      · exact hpre jp hjp
      · rw [hjp]
        have hj := augParams_ok_jobName pn s parents p haug
        simp only [dictContains, hp2, hj]
        exact namedParams_jobName_isSome pn s
  | pn, .chain ns, parents, st, r, t, st2, h, hpre => by
    rcases walkNode_chain_ok pn ns parents st r t st2 h with ⟨ns2, hw, _⟩
    exact walkChain_jobName pn ns parents st r ns2 st2 hw hpre
  | pn, .parallel ns, parents, st, r, t, st2, h, hpre => by
    rcases walkNode_parallel_ok pn ns parents st r t st2 h with ⟨ns2, hw, _⟩
    exact walkParallel_jobName pn ns parents st r ns2 st2 hw hpre

theorem walkChain_jobName : ∀ (pn : String) (ns : List Node) (parents : List Nat)
    (st : SubmitState) (r : List Nat) (ns2 : List Node) (st2 : SubmitState),
    walkChain pn ns parents st = .ok (r, ns2, st2) →
    (∀ jp ∈ st.submitted, dictContains jp.2 "slurm_job_name" = true) →
    ∀ jp ∈ st2.submitted, dictContains jp.2 "slurm_job_name" = true
  | pn, [], parents, st, r, ns2, st2, h, hpre => by
    simp only [walkChain] at h
    injection h with h2
    obtain ⟨_, h3⟩ := Prod.mk.inj h2
    obtain ⟨_, hst⟩ := Prod.mk.inj h3
    rw [← hst]
    exact hpre
  | pn, n :: ns, parents, st, r, ns2, st2, h, hpre => by
    rcases walkChain_cons_ok pn n ns parents st r ns2 st2 h with
      ⟨r1, n2, st1, ns3, h1, h2, _⟩
    exact walkChain_jobName pn ns r1 st1 r ns3 st2 h2
      (walkNode_jobName pn n parents st r1 n2 st1 h1 hpre)

theorem walkParallel_jobName : ∀ (pn : String) (ns : List Node) (parents : List Nat)
    (st : SubmitState) (r : List Nat) (ns2 : List Node) (st2 : SubmitState),
    walkParallel pn ns parents st = .ok (r, ns2, st2) →
    (∀ jp ∈ st.submitted, dictContains jp.2 "slurm_job_name" = true) →
    ∀ jp ∈ st2.submitted, dictContains jp.2 "slurm_job_name" = true
  | pn, [], parents, st, r, ns2, st2, h, hpre => by
    simp only [walkParallel] at h
    injection h with h2
    obtain ⟨_, h3⟩ := Prod.mk.inj h2
    obtain ⟨_, hst⟩ := Prod.mk.inj h3
    rw [← hst]
    exact hpre
  | pn, n :: ns, parents, st, r, ns2, st2, h, hpre => by
    rcases walkParallel_cons_ok pn n ns parents st r ns2 st2 h with
      ⟨r1, n2, st1, rs2, ns3, h1, h2, _, _⟩
    exact walkParallel_jobName pn ns parents st1 rs2 ns3 st2 h2
      (walkNode_jobName pn n parents st r1 n2 st1 h1 hpre)
end

mutual
theorem walkNode_slots : ∀ (pn : String) (n : Node) (parents : List Nat)
    (st : SubmitState) (r : List Nat) (t : Node) (st2 : SubmitState),
    walkNode pn n parents st = .ok (r, t, st2) →
    ∀ s2 ∈ stepsOf t, ∃ j, s2.job = some j
  | pn, .step s, parents, st, r, t, st2, h => by
    rcases stepSubmit_ok pn s parents st r t st2 h with ⟨p, _, ht, _⟩
    intro s2 hs2
    rw [ht] at hs2
    simp only [stepsOf, List.mem_singleton] at hs2
    rw [hs2]
    exact ⟨st.nextId, rfl⟩
  | pn, .chain ns, parents, st, r, t, st2, h => by
    rcases walkNode_chain_ok pn ns parents st r t st2 h with ⟨ns2, hw, ht⟩
    rw [ht]
    intro s2 hs2
    exact walkChain_slots pn ns parents st r ns2 st2 hw s2 (by simpa [stepsOf] using hs2)
  | pn, .parallel ns, parents, st, r, t, st2, h => by
    rcases walkNode_parallel_ok pn ns parents st r t st2 h with ⟨ns2, hw, ht⟩
    rw [ht]
    intro s2 hs2
    exact walkParallel_slots pn ns parents st r ns2 st2 hw s2 (by simpa [stepsOf] using hs2)

theorem walkChain_slots : ∀ (pn : String) (ns : List Node) (parents : List Nat)
    (st : SubmitState) (r : List Nat) (ns2 : List Node) (st2 : SubmitState),
    walkChain pn ns parents st = .ok (r, ns2, st2) →
    ∀ s2 ∈ stepsOfList ns2, ∃ j, s2.job = some j
  | pn, [], parents, st, r, ns2, st2, h => by
    simp only [walkChain] at h
    injection h with h2
    obtain ⟨_, h3⟩ := Prod.mk.inj h2
    obtain ⟨hns, _⟩ := Prod.mk.inj h3
    rw [← hns]
    intro s2 hs2
    simp [stepsOfList] at hs2
  | pn, n :: ns, parents, st, r, ns2, st2, h => by
    rcases walkChain_cons_ok pn n ns parents st r ns2 st2 h with
      ⟨r1, n2, st1, ns3, h1, h2, hns⟩
    rw [hns]
    intro s2 hs2
    simp only [stepsOfList, List.mem_append] at hs2
    rcases hs2 with hs2 | hs2
    · exact walkNode_slots pn n parents st r1 n2 st1 h1 s2 hs2
    · exact walkChain_slots pn ns r1 st1 r ns3 st2 h2 s2 hs2

theorem walkParallel_slots : ∀ (pn : String) (ns : List Node) (parents : List Nat)
    (st : SubmitState) (r : List Nat) (ns2 : List Node) (st2 : SubmitState),
    walkParallel pn ns parents st = .ok (r, ns2, st2) →
    ∀ s2 ∈ stepsOfList ns2, ∃ j, s2.job = some j
  | pn, [], parents, st, r, ns2, st2, h => by
    simp only [walkParallel] at h
    injection h with h2
    obtain ⟨_, h3⟩ := Prod.mk.inj h2
    obtain ⟨hns, _⟩ := Prod.mk.inj h3
    rw [← hns]
    intro s2 hs2
    simp [stepsOfList] at hs2
  | pn, n :: ns, parents, st, r, ns2, st2, h => by
    rcases walkParallel_cons_ok pn n ns parents st r ns2 st2 h with
      ⟨r1, n2, st1, rs2, ns3, h1, h2, hns, _⟩
    rw [hns]
    intro s2 hs2
    simp only [stepsOfList, List.mem_append] at hs2
    rcases hs2 with hs2 | hs2
    · exact walkNode_slots pn n parents st r1 n2 st1 h1 s2 hs2
    · exact walkParallel_slots pn ns parents st1 rs2 ns3 st2 h2 s2 hs2
end

theorem stepSubmit_ok_payload (pn : String) (s : StepData) (parents : List Nat)
    (st : SubmitState) (r : List Nat) (t : Node) (st2 : SubmitState) (p : PyDict)
    (h : stepSubmit pn s parents st = .ok (r, t, st2))
    (haug : augParams pn s parents = .ok p) :
    r = [st.nextId] ∧ t = .step { s with job := some st.nextId } ∧
      st2 = ⟨st.nextId + 1, st.submitted ++ [(st.nextId, p)]⟩ := by
  rw [stepSubmit, haug] at h
  injection h with h2
  obtain ⟨hr, h3⟩ := Prod.mk.inj h2
  obtain ⟨ht, hst⟩ := Prod.mk.inj h3
  exact ⟨hr.symm, ht.symm, hst.symm⟩

/-- Claim C2: a Step submitted under a nonempty predecessor set gets an
`afterok` dependency joining exactly the predecessor job ids; under an
empty predecessor set the payload is exactly the job-name-augmented
descriptor, with no dependency added; a two-step Chain gives the second
step a constraint naming exactly the first step's id; a two-step Parallel
under a shared predecessor set gives both steps the identical constraint,
referencing only the shared predecessor. -/
theorem c2_dependency_constraint :
    (∀ pn s parents st r t st2, parents ≠ [] →
      walkNode pn (.step s) parents st = .ok (r, t, st2) →
      ∃ p ad, st2.submitted = st.submitted ++ [(st.nextId, p)] ∧
        dictGet p "slurm_additional_parameters" = some (.vdict ad) ∧
        dictGet ad "dependency" = some (.vstr (depString parents))) ∧
    (∀ pn s st r t st2,
      walkNode pn (.step s) [] st = .ok (r, t, st2) →
      st2.submitted = st.submitted ++ [(st.nextId, namedParams pn s)]) ∧
    (planSubmit "p" (.chain [.step ⟨"a", .raw [("slurm_time", .vstr "00:10:00")], none, 600⟩,
                             .step ⟨"b", .raw [("slurm_time", .vstr "00:20:00")], none, 1200⟩]) =
      .ok ([1],
        .chain [.step ⟨"a", .raw [("slurm_time", .vstr "00:10:00")], some 0, 600⟩,
                .step ⟨"b", .raw [("slurm_time", .vstr "00:20:00")], some 1, 1200⟩],
        ⟨2, [(0, [("slurm_time", .vstr "00:10:00"), ("slurm_job_name", .vstr "p")]),
             (1, [("slurm_time", .vstr "00:20:00"), ("slurm_job_name", .vstr "p"),
                  ("slurm_additional_parameters",
                   .vdict [("dependency", .vstr "afterok:0")])])]⟩)) ∧
    (walkNode "p" (.parallel [.step ⟨"a", .raw [("slurm_time", .vstr "00:10:00")], none, 600⟩,
                              .step ⟨"b", .raw [("slurm_time", .vstr "00:20:00")], none, 1200⟩])
        [5] ⟨6, []⟩ =
      .ok ([6, 7],
        .parallel [.step ⟨"a", .raw [("slurm_time", .vstr "00:10:00")], some 6, 600⟩,
                   .step ⟨"b", .raw [("slurm_time", .vstr "00:20:00")], some 7, 1200⟩],
        ⟨8, [(6, [("slurm_time", .vstr "00:10:00"), ("slurm_job_name", .vstr "p"),
                  ("slurm_additional_parameters",
                   .vdict [("dependency", .vstr "afterok:5")])]),
             (7, [("slurm_time", .vstr "00:20:00"), ("slurm_job_name", .vstr "p"),
                  ("slurm_additional_parameters",
                   .vdict [("dependency", .vstr "afterok:5")])])]⟩)) := by
  refine ⟨?_, ?_, rfl, rfl⟩
  · intro pn s parents st r t st2 hne h
    have hs : stepSubmit pn s parents st = .ok (r, t, st2) := h
    cases haug : augParams pn s parents with
    | error e => rw [stepSubmit, haug] at hs; exact Except.noConfusion hs
    | ok p =>
      obtain ⟨hr, ht, hst⟩ := stepSubmit_ok_payload pn s parents st r t st2 p hs haug
      obtain ⟨ad, h1, h2⟩ := augParams_ok_dep pn s parents p hne haug
      exact ⟨p, ad, by rw [hst], h1, h2⟩
  · intro pn s st r t st2 h
    have hs : stepSubmit pn s [] st = .ok (r, t, st2) := h
    obtain ⟨hr, ht, hst⟩ :=
      stepSubmit_ok_payload pn s [] st r t st2 (namedParams pn s) hs (augParams_empty pn s)
    rw [hst]

/-- Witness for C2: a Step submitted under predecessors `[5]` and one under
no predecessors. -/
theorem c2_dependency_constraint_witness :
    (∃ p ad,
      (SubmitState.submitted ⟨10, [(9, [("slurm_time", .vstr "00:05:00"),
                                        ("slurm_job_name", .vstr "w"),
                                        ("slurm_additional_parameters",
                                         .vdict [("dependency", .vstr "afterok:5")])])]⟩) =
        [] ++ [(9, p)] ∧
      dictGet p "slurm_additional_parameters" = some (.vdict ad) ∧
      dictGet ad "dependency" = some (.vstr (depString [5]))) ∧
    (SubmitState.submitted ⟨4, [(3, [("slurm_time", .vstr "00:05:00"),
                                     ("slurm_job_name", .vstr "w")])]⟩) =
      [] ++ [(3, namedParams "w" ⟨"s", .raw [("slurm_time", .vstr "00:05:00")], none, 300⟩)] := by
  constructor
  · exact c2_dependency_constraint.1 "w"
      ⟨"s", .raw [("slurm_time", .vstr "00:05:00")], none, 300⟩ [5] ⟨9, []⟩ _ _ _
      (by simp) rfl
  · exact c2_dependency_constraint.2.1 "w"
      ⟨"s", .raw [("slurm_time", .vstr "00:05:00")], none, 300⟩ ⟨3, []⟩ _ _ _ rfl

/-- Claim C7 counterexample: the job-handle slot is not protected by any
runtime check. Submitting a Step whose slot is already populated (job 99)
succeeds and silently overwrites the slot with the new handle (job 0)
instead of rejecting the second write. -/
theorem c7_counterexample :
    walkNode "p" (.step ⟨"a", .raw [("slurm_time", .vstr "00:10:00")], some 99, 600⟩) [] {} =
      .ok ([0],
        .step ⟨"a", .raw [("slurm_time", .vstr "00:10:00")], some 0, 600⟩,
        ⟨1, [(0, [("slurm_time", .vstr "00:10:00"), ("slurm_job_name", .vstr "p")])]⟩) ∧
    some (0 : Nat) ≠ some 99 := ⟨rfl, by decide⟩

/-- Claim C7 as amended: submission assigns the fresh job handle to a
Step's slot unconditionally (no runtime check; a populated slot is
silently overwritten), and after a successful submission every Step of the
returned tree has a populated slot — so under a single submission of a
fresh plan each slot goes from empty to populated exactly once. -/
theorem c7_amended_write_once :
    (∀ pn s parents st r t st2,
      walkNode pn (.step s) parents st = .ok (r, t, st2) →
      t = .step { s with job := some st.nextId }) ∧
    (∀ pn n parents st r t st2,
      walkNode pn n parents st = .ok (r, t, st2) →
      ∀ s2 ∈ stepsOf t, ∃ j, s2.job = some j) := by
  constructor
  · intro pn s parents st r t st2 h
    exact (stepSubmit_ok pn s parents st r t st2 h).choose_spec.2.1
  · exact walkNode_slots

/-- Witness for the amended C7: a Step whose slot already holds 99 is
returned with its slot overwritten by the fresh id 0. -/
theorem c7_amended_write_once_witness :
    (Node.step ⟨"a", .raw [("slurm_time", .vstr "00:30:00")], some 0, 1800⟩) =
      .step { name := "a", slurm_args := .raw [("slurm_time", .vstr "00:30:00")],
              job := some (SubmitState.nextId {}), duration := 1800 } :=
  c7_amended_write_once.1 "w" ⟨"a", .raw [("slurm_time", .vstr "00:30:00")], some 99, 1800⟩
    [] {} [0]
    (.step ⟨"a", .raw [("slurm_time", .vstr "00:30:00")], some 0, 1800⟩)
    ⟨1, [(0, [("slurm_time", .vstr "00:30:00"), ("slurm_job_name", .vstr "w")])]⟩ rfl

/-- Claim C10: a Step whose descriptor lacks `slurm_job_name` gets the
Plan's name as job name; a Step carrying its own is left unchanged; the
recorded payload of a submitted Step has the same job-name entry as the
augmented descriptor and always contains the key; hence every payload
recorded by a submission carries a job name. -/
theorem c10_job_name_default :
    (∀ pn s, dictContains (toSubmititDict s.slurm_args) "slurm_job_name" = false →
      dictGet (namedParams pn s) "slurm_job_name" = some (.vstr pn)) ∧
    (∀ pn s, dictContains (toSubmititDict s.slurm_args) "slurm_job_name" = true →
      namedParams pn s = toSubmititDict s.slurm_args) ∧
    (∀ pn s parents st r t st2,
      walkNode pn (.step s) parents st = .ok (r, t, st2) →
      ∃ p, st2.submitted = st.submitted ++ [(st.nextId, p)] ∧
        dictGet p "slurm_job_name" = dictGet (namedParams pn s) "slurm_job_name" ∧
        dictContains p "slurm_job_name" = true) ∧
    (∀ pn n parents st r t st2,
      walkNode pn n parents st = .ok (r, t, st2) →
      (∀ jp ∈ st.submitted, dictContains jp.2 "slurm_job_name" = true) →
      ∀ jp ∈ st2.submitted, dictContains jp.2 "slurm_job_name" = true) := by
  refine ⟨namedParams_defaults, namedParams_keeps, ?_, walkNode_jobName⟩
  intro pn s parents st r t st2 h
  have hs : stepSubmit pn s parents st = .ok (r, t, st2) := h
  cases haug : augParams pn s parents with
  | error e => rw [stepSubmit, haug] at hs; exact Except.noConfusion hs
  | ok p =>
    obtain ⟨hr, ht, hst⟩ := stepSubmit_ok_payload pn s parents st r t st2 p hs haug
    have hj := augParams_ok_jobName pn s parents p haug
    refine ⟨p, by rw [hst], hj, ?_⟩
    simp only [dictContains, hj]
    exact namedParams_jobName_isSome pn s

/-- Witness for C10 at concrete Steps with and without their own
`slurm_job_name`. -/
theorem c10_job_name_default_witness :
    dictGet (namedParams "p" ⟨"s", .raw [("slurm_time", .vstr "00:10:00")], none, 600⟩)
        "slurm_job_name" = some (.vstr "p") ∧
    namedParams "p" ⟨"s", .raw [("slurm_time", .vstr "00:10:00"),
                                ("slurm_job_name", .vstr "custom")], none, 600⟩ =
      toSubmititDict (.raw [("slurm_time", .vstr "00:10:00"),
                            ("slurm_job_name", .vstr "custom")]) ∧
    dictContains [("slurm_time", PyVal.vstr "00:10:00"),
                  ("slurm_job_name", PyVal.vstr "p")] "slurm_job_name" = true := by
  refine ⟨?_, ?_, ?_⟩
  · exact c10_job_name_default.1 "p"
      ⟨"s", .raw [("slurm_time", .vstr "00:10:00")], none, 600⟩ rfl
  · exact c10_job_name_default.2.1 "p"
      ⟨"s", .raw [("slurm_time", .vstr "00:10:00"),
                  ("slurm_job_name", .vstr "custom")], none, 600⟩ rfl
  · exact c10_job_name_default.2.2.2 "p"
      (.step ⟨"s", .raw [("slurm_time", .vstr "00:10:00")], none, 600⟩) [] ⟨0, []⟩
      [0] (.step ⟨"s", .raw [("slurm_time", .vstr "00:10:00")], some 0, 600⟩)
      ⟨1, [(0, [("slurm_time", .vstr "00:10:00"), ("slurm_job_name", .vstr "p")])]⟩
      rfl (by simp)
      (0, [("slurm_time", PyVal.vstr "00:10:00"), ("slurm_job_name", PyVal.vstr "p")])
      (by simp)

/-- Claim C5: the wait traversal at a Step whose job-handle slot was never
assigned fails immediately with the not-submitted error (it never invokes
any result retrieval, so it cannot block); and Step construction with a
malformed time budget fails at construction, so no partially-valid Step is
returned. -/
theorem c5_not_submitted :
    (∀ R s, s.job = none →
      waitNode R (.step s) =
        ⟨[], .error ("Step '" ++ s.name ++ "' has not been submitted yet")⟩) ∧
    (∀ name sa t e, getTime name sa = .ok t → parseSlurmTime t = .error e →
      mkStep name sa = .error e) := by
  constructor
  · intro R s hj
    simp [waitNode, hj]
  · intro name sa t e hgt hp
    simp [mkStep, hgt, hp]

/-- Witness for C5: an unsubmitted Step, and a Step built from the
unparsable budget string `zzz`. -/
theorem c5_not_submitted_witness :
    waitNode (fun _ => .ok ()) (.step ⟨"a", .raw [("slurm_time", .vstr "00:10:00")], none, 600⟩) =
      ⟨[], .error "Step 'a' has not been submitted yet"⟩ ∧
    mkStep "s" (.raw [("slurm_time", .vstr "zzz")]) =
      .error "Could not parse time 'zzz'.\nUnknown time format." := by
  constructor
  · exact (c5_not_submitted.1 (fun _ => .ok ())
      ⟨"a", .raw [("slurm_time", .vstr "00:10:00")], none, 600⟩ rfl).trans rfl
  · exact c5_not_submitted.2 "s" (.raw [("slurm_time", .vstr "zzz")]) "zzz"
      "Could not parse time 'zzz'.\nUnknown time format." rfl rfl

/-- Claim C6: waiting on a nonempty Parallel evaluates one wait task per
child, the retrievals of every child are all performed (the observed jobs
are the concatenation over all children, failing or not), and the outcome
is the failure of the structurally first failing child (ok when no child
fails). -/
theorem c6_parallel_wait :
    (∀ R ns, ns ≠ [] →
      waitNode R (.parallel ns) =
        ⟨((waitTasks R ns).map WaitRes.observed).flatten,
         firstFailure ((waitTasks R ns).map WaitRes.outcome)⟩) ∧
    (∀ R n ns, waitTasks R (n :: ns) = waitNode R n :: waitTasks R ns) ∧
    (∀ os1 e os2, (∀ o ∈ os1, o = .ok ()) →
      firstFailure (os1 ++ .error e :: os2) = .error e) ∧
    (∀ os, (∀ o ∈ os, o = .ok ()) → firstFailure os = .ok ()) := by
  refine ⟨?_, ?_, ?_, ?_⟩
  · intro R ns hne
    rw [waitNode]
    rw [if_neg (by simpa using hne)]
  · intro R n ns
    rw [waitTasks]
  · intro os1 e os2 hok
    induction os1 with
    | nil => simp [firstFailure]
    | cons o os ih =>
      have ho := hok o (by simp)
      rw [ho]
      simp only [List.cons_append]
      rw [firstFailure]
      exact ih (fun o2 h2 => hok o2 (by simp [h2]))
  · intro os hok
    induction os with
    | nil => rfl
    | cons o os ih =>
      have ho := hok o (by simp)
      rw [ho, firstFailure]
      exact ih (fun o2 h2 => hok o2 (by simp [h2]))

/-- Witness for C6: a three-branch Parallel whose second and third branches
fail; all three jobs are observed and the second branch's failure (the
structurally first failure) is the one propagated. -/
theorem c6_parallel_wait_witness :
    waitNode (fun j => if j = 1 then .error "boom1" else if j = 2 then .error "boom2" else .ok ())
        (.parallel [.step ⟨"a", .raw [], some 0, 0⟩,
                    .step ⟨"b", .raw [], some 1, 0⟩,
                    .step ⟨"c", .raw [], some 2, 0⟩]) =
      ⟨[0, 1, 2], .error "boom1"⟩ ∧
    firstFailure [.ok (), .error "boom1", .error "boom2"] = .error "boom1" := by
  constructor
  · exact (c6_parallel_wait.1
      (fun j => if j = 1 then .error "boom1" else if j = 2 then .error "boom2" else .ok ())
      [.step ⟨"a", .raw [], some 0, 0⟩, .step ⟨"b", .raw [], some 1, 0⟩,
       .step ⟨"c", .raw [], some 2, 0⟩] (by simp)).trans rfl
  · exact c6_parallel_wait.2.2.1 [.ok ()] "boom1" [.error "boom2"] (by simp)

/-- Claim C8: a raw descriptor without the `slurm_time` key fails Step
construction immediately with an error naming the missing key; when the
key is present its value is the one parsed for the duration (via `str()`)
and it appears unchanged in the submission payload. -/
theorem c8_raw_dict_time :
    (∀ name m, dictGet m "slurm_time" = none →
      getTime name (.raw m) =
        .error ("Step '" ++ name ++ "': raw dict must include 'slurm_time'") ∧
      mkStep name (.raw m) =
        .error ("Step '" ++ name ++ "': raw dict must include 'slurm_time'")) ∧
    (∀ name m v, dictGet m "slurm_time" = some v →
      getTime name (.raw m) = .ok (pyStr v) ∧
      dictGet (toSubmititDict (.raw m)) "slurm_time" = some v) := by
  constructor
  · intro name m hget
    constructor
    · simp [getTime, hget]
    · simp [mkStep, getTime, hget]
  · intro name m v hget
    exact ⟨by simp [getTime, hget], by simpa [toSubmititDict] using hget⟩

/-- Witness for C8: a raw dict without `slurm_time`, and one carrying it. -/
theorem c8_raw_dict_time_witness :
    mkStep "s" (.raw [("slurm_partition", .vstr "batch")]) =
      .error "Step 's': raw dict must include 'slurm_time'" ∧
    getTime "s" (.raw [("slurm_time", .vstr "01:00:00")]) = .ok (pyStr (.vstr "01:00:00")) := by
  constructor
  · exact ((c8_raw_dict_time.1 "s" [("slurm_partition", .vstr "batch")] rfl).2).trans rfl
  · exact (c8_raw_dict_time.2 "s" [("slurm_time", .vstr "01:00:00")] (.vstr "01:00:00") rfl).1

/-! ## Lemmas about the time parser -/

theorem splitOnChar_no_sep (c : Char) (l : List Char) (h : c ∉ l) :
    splitOnChar c l = [l] := by
  induction l with
  | nil => rfl
  | cons x xs ih =>
    have hx : ¬ x = c := fun he => h (he ▸ List.mem_cons_self x xs)
    rw [splitOnChar, if_neg hx, ih (fun hm => h (List.mem_cons_of_mem x hm))]

theorem splitOnChar_sep (c : Char) (a b : List Char) (h : c ∉ a) :
    splitOnChar c (a ++ c :: b) = a :: splitOnChar c b := by
  induction a with
  | nil => simp [splitOnChar]
  | cons x xs ih =>
    have hx : ¬ x = c := fun he => h (he ▸ List.mem_cons_self x xs)
    rw [List.cons_append, splitOnChar, if_neg hx,
      ih (fun hm => h (List.mem_cons_of_mem x hm))]

theorem splitOnChar_ne_nil (c : Char) (l : List Char) : splitOnChar c l ≠ [] := by
  cases l with
  | nil => simp [splitOnChar]
  | cons x xs =>
    rw [splitOnChar]
    by_cases hx : x = c
    · simp [hx]
    · rw [if_neg hx]
      cases h2 : splitOnChar c xs <;> simp

theorem joinSep_cons (c : Char) (p : List Char) (ps : List (List Char))
    (h : ps ≠ []) : joinSep c (p :: ps) = p ++ c :: joinSep c ps := by
  cases ps with
  | nil => exact absurd rfl h
  | cons q qs => rfl

theorem joinSep_splitOnChar (c : Char) (l : List Char) :
    joinSep c (splitOnChar c l) = l := by
  induction l with
  | nil => rfl
  | cons x xs ih =>
    rw [splitOnChar]
    by_cases hx : x = c
    · rw [if_pos hx, joinSep_cons c [] _ (splitOnChar_ne_nil c xs), ih, hx]
      rfl
    · rw [if_neg hx]
      cases h2 : splitOnChar c xs with
      | nil => exact absurd h2 (splitOnChar_ne_nil c xs)
      | cons p ps =>
        rw [h2] at ih
        cases ps with
        | nil =>
          have hp : p = xs := ih
          rw [hp]
          rfl
        | cons q qs =>
          rw [joinSep_cons c (x :: p) (q :: qs) (by simp),
              List.cons_append, ← joinSep_cons c p (q :: qs) (by simp), ih]

theorem not_mem_of_all_digits (l : List Char) (h : l.all Char.isDigit = true)
    (c : Char) (hc : c.isDigit = false) : c ∉ l := by
  intro hm
  have h2 := List.all_eq_true.mp h c hm
  rw [hc] at h2
  exact Bool.noConfusion h2

theorem no_colon_of_digits (l : List Char) (h : l.all Char.isDigit = true) :
    ':' ∉ l := not_mem_of_all_digits l h ':' (by decide)

theorem no_dash_of_digits (l : List Char) (h : l.all Char.isDigit = true) :
    '-' ∉ l := not_mem_of_all_digits l h '-' (by decide)

theorem contains_eq_false (l : List Char) (c : Char) (h : c ∉ l) :
    l.contains c = false := by
  rw [Bool.eq_false_iff]
  intro hc
  exact h (List.mem_of_elem_eq_true hc)

theorem char_digit_bounds (c : Char) (h : c.isDigit = true) :
    48 ≤ c.toNat ∧ c.toNat ≤ 57 := by
  simpa [Char.isDigit] using h

theorem uniDigitValGo_lt_ten : ∀ (bs : List Nat) (n d : Nat),
    uniDigitValGo bs n = some d → d < 10 := by
  intro bs
  induction bs with
  | nil => intro n d h; exact Option.noConfusion h
  | cons b rest ih =>
    intro n d h
    rw [uniDigitValGo] at h
    split at h
    · rename_i hc
      have hv := Option.some.inj h
      omega
    · exact ih n d h

theorem uniDigitVal_lt_ten (c : Char) (d : Nat) (h : uniDigitVal c = some d) :
    d < 10 := by
  unfold uniDigitVal at h
  split at h
  · rename_i hc
    have hv := Option.some.inj h
    omega
  · exact uniDigitValGo_lt_ten _ _ _ h

theorem uniDigitVal_colon : uniDigitVal ':' = none := by decide

theorem uniDigitVal_dash : uniDigitVal '-' = none := by decide

theorem uniDigitVal_ne_sep (c : Char) (d : Nat) (h : uniDigitVal c = some d) :
    c ≠ ':' ∧ c ≠ '-' := by
  constructor
  · intro he; rw [he, uniDigitVal_colon] at h; exact Option.noConfusion h
  · intro he; rw [he, uniDigitVal_dash] at h; exact Option.noConfusion h

theorem uniDigitVal_ascii (c : Char) (h : c.isDigit = true) :
    uniDigitVal c = some (c.toNat - 48) := by
  obtain ⟨h1, h2⟩ := char_digit_bounds c h
  unfold uniDigitVal
  rw [if_pos ⟨h1, by omega⟩]

theorem isPyWS_of_digit (c : Char) (h : c.isDigit = true) :
    isPyWS c = false := by
  obtain ⟨h1, h2⟩ := char_digit_bounds c h
  unfold isPyWS
  rw [Bool.eq_false_iff]
  intro hc
  have hm : c.toNat ∈ wsCodes := List.mem_of_elem_eq_true hc
  generalize hn : c.toNat = n at hm h1 h2
  fin_cases hm <;> omega

theorem not_mem_single (c x : Char) (hx : x ≠ c) : c ∉ [x] := by
  intro hm
  rw [List.mem_singleton] at hm
  exact hx hm.symm

theorem not_mem_pair (c x y : Char) (hx : x ≠ c) (hy : y ≠ c) : c ∉ [x, y] := by
  intro hm
  rcases List.mem_cons.mp hm with he | hm2
  · exact hx he.symm
  · rw [List.mem_singleton] at hm2
    exact hy hm2.symm

theorem digitsToNat_append (l : List Char) (c : Char) :
    digitsToNat (l ++ [c]) = 10 * digitsToNat l + (c.toNat - 48) := by
  simp [digitsToNat, List.foldl_append]

theorem digitChar_spec : ∀ k, k < 10 →
    (digitChar k).isDigit = true ∧ (digitChar k).toNat = 48 + k := by decide

theorem natDigitsGo_spec : ∀ n fuel acc, n < fuel →
    ∃ ds, natDigitsGo fuel n acc = ds ++ acc ∧ ds.all Char.isDigit = true ∧
      ds ≠ [] ∧ digitsToNat ds = n := by
  intro n
  induction n using Nat.strong_induction_on with
  | _ n ih =>
    intro fuel acc hlt
    cases fuel with
    | zero => omega
    | succ f =>
      rw [natDigitsGo]
      by_cases h : n < 10
      · rw [if_pos h]
        refine ⟨[digitChar n], rfl, ?_, by simp, ?_⟩
        · simp [(digitChar_spec n h).1]
        · simp [digitsToNat, (digitChar_spec n h).2]
      · rw [if_neg h]
        have hdiv : n / 10 < n := Nat.div_lt_self (by omega) (by omega)
        obtain ⟨ds, hgo, hall, hne, hval⟩ :=
          ih (n / 10) hdiv f (digitChar (n % 10) :: acc) (by omega)
        have hm : n % 10 < 10 := Nat.mod_lt n (by omega)
        refine ⟨ds ++ [digitChar (n % 10)], ?_, ?_, by simp, ?_⟩
        · rw [hgo, List.append_assoc]
          rfl
        · rw [List.all_append, hall]
          simp [(digitChar_spec _ hm).1]
        · rw [digitsToNat_append, hval, (digitChar_spec _ hm).2]
          omega

theorem natDigits_spec (n : Nat) :
    (natDigits n).all Char.isDigit = true ∧ natDigits n ≠ [] ∧
      digitsToNat (natDigits n) = n := by
  obtain ⟨ds, hgo, hall, hne, hval⟩ := natDigitsGo_spec n (n + 1) [] (by omega)
  have : natDigits n = ds := by rw [natDigits, hgo, List.append_nil]
  rw [this]
  exact ⟨hall, hne, hval⟩


theorem fmt2_spec : ∀ n, n < 100 →
    (fmt2 n).all Char.isDigit = true ∧ (fmt2 n).length ≤ 2 ∧
      fmt2 n ≠ [] ∧ digitsToNat (fmt2 n) = n := by decide

theorem mem_dropWhile_of_not (p : Char → Bool) (l : List Char) (c : Char)
    (hc : p c = false) (hm : c ∈ l) : c ∈ l.dropWhile p := by
  induction l with
  | nil => cases hm
  | cons x t ih =>
    rw [List.dropWhile_cons]
    by_cases hx : p x = true
    · rw [if_pos hx]
      rcases List.mem_cons.mp hm with he | h2
      · rw [he, hx] at hc
        exact Bool.noConfusion hc
      · exact ih h2
    · rw [if_neg hx]
      exact hm

theorem mem_stripWS_of_not (l : List Char) (c : Char)
    (hc : isPyWS c = false) (hm : c ∈ l) : c ∈ stripWS l := by
  unfold stripWS
  rw [List.mem_reverse]
  exact mem_dropWhile_of_not _ _ _ hc
    (List.mem_reverse.mpr (mem_dropWhile_of_not _ _ _ hc hm))

theorem stripWS_digits (l : List Char) (hall : l.all Char.isDigit = true)
    (hne : l ≠ []) : stripWS l = l := by
  cases l with
  | nil => exact absurd rfl hne
  | cons c t =>
    have hc : isPyWS c = false :=
      isPyWS_of_digit c (List.all_eq_true.mp hall c (List.mem_cons_self c t))
    unfold stripWS
    rw [List.dropWhile_cons, if_neg (by simp [hc])]
    cases hrev : (c :: t).reverse with
    | nil => simp at hrev
    | cons d r =>
      have hd : d ∈ c :: t := by
        rw [← List.mem_reverse, hrev]
        exact List.mem_cons_self d r
      have hdws : isPyWS d = false :=
        isPyWS_of_digit d (List.all_eq_true.mp hall d hd)
      rw [List.dropWhile_cons, if_neg (by simp [hdws]), ← hrev,
        List.reverse_reverse]

theorem dwuGo_no_dash : ∀ (cs : List Char) (acc v : Nat),
    dwuGo cs acc = some v → '-' ∉ cs
  | [], _, _, _ => by simp
  | c :: rest, acc, v, h => by
    rw [dwuGo.eq_def] at h
    simp only at h
    by_cases hc : c = '_'
    · rw [if_pos hc] at h
      cases rest with
      | nil => simp at h
      | cons c2 rest2 =>
        simp only at h
        cases hu : uniDigitVal c2 with
        | none => rw [hu] at h; simp at h
        | some d =>
          rw [hu] at h
          simp only at h
          intro hm
          rcases List.mem_cons.mp hm with he | hm2
          · rw [hc] at he
            exact absurd he (by decide)
          · rcases List.mem_cons.mp hm2 with he | hm3
            · rw [← he, uniDigitVal_dash] at hu
              exact Option.noConfusion hu
            · exact dwuGo_no_dash rest2 _ _ h hm3
    · rw [if_neg hc] at h
      cases hu : uniDigitVal c with
      | none => rw [hu] at h; simp at h
      | some d =>
        rw [hu] at h
        simp only at h
        intro hm
        rcases List.mem_cons.mp hm with he | hm2
        · rw [← he, uniDigitVal_dash] at hu
          exact Option.noConfusion hu
        · exact dwuGo_no_dash rest _ _ h hm2

theorem dwuGo_digits : ∀ (cs : List Char) (acc : Nat),
    cs.all Char.isDigit = true →
    dwuGo cs acc = some (cs.foldl (fun a ch => 10 * a + (ch.toNat - 48)) acc)
  | [], acc, _ => by simp [dwuGo]
  | c :: rest, acc, hall => by
    have hc : c.isDigit = true := List.all_eq_true.mp hall c (List.mem_cons_self c rest)
    have hrest : rest.all Char.isDigit = true := by
      rw [List.all_cons, Bool.and_eq_true] at hall
      exact hall.2
    have hne : ¬ c = '_' := by
      intro he
      rw [he] at hc
      exact absurd hc (by decide)
    rw [dwuGo.eq_def]
    simp only
    rw [if_neg hne, uniDigitVal_ascii c hc]
    simp only
    rw [dwuGo_digits rest _ hrest, List.foldl_cons]

theorem pyIntDigits_no_dash (cs : List Char) (v : Nat)
    (h : pyIntDigits cs = some v) : '-' ∉ cs := by
  cases cs with
  | nil => simp
  | cons c rest =>
    simp only [pyIntDigits] at h
    cases hu : uniDigitVal c with
    | none => rw [hu] at h; simp at h
    | some d =>
      rw [hu] at h
      simp only at h
      intro hm
      rcases List.mem_cons.mp hm with he | hm2
      · rw [← he, uniDigitVal_dash] at hu
        exact Option.noConfusion hu
      · exact dwuGo_no_dash rest d v h hm2

theorem mem_dropSign (cs : List Char) (c : Char) (hc : c ≠ '+') (hm : c ∈ cs) :
    c ∈ dropSign cs := by
  cases cs with
  | nil => cases hm
  | cons x t =>
    simp only [dropSign]
    by_cases hx : x = '+'
    · rw [if_pos hx]
      rcases List.mem_cons.mp hm with he | h2
      · exact absurd (he.trans hx) hc
      · exact h2
    · rw [if_neg hx]
      exact hm

theorem pyInt_no_dash (cs : List Char) (v : Nat) (h : pyInt cs = some v) :
    '-' ∉ cs := by
  intro hm
  have h1 : '-' ∈ stripWS cs := mem_stripWS_of_not cs '-' (by decide) hm
  have h2 : '-' ∈ dropSign (stripWS cs) := mem_dropSign _ '-' (by decide) h1
  exact pyIntDigits_no_dash _ v h h2


theorem pyInt_natDigits (n : Nat) : pyInt (natDigits n) = some n := by
  obtain ⟨hall, hne, hval⟩ := natDigits_spec n
  unfold pyInt
  rw [stripWS_digits _ hall hne]
  cases hd : natDigits n with
  | nil => exact absurd hd hne
  | cons c t =>
    rw [hd] at hall hval
    have hc : c.isDigit = true := List.all_eq_true.mp hall c (List.mem_cons_self c t)
    have ht : t.all Char.isDigit = true := by
      rw [List.all_cons, Bool.and_eq_true] at hall
      exact hall.2
    have hplus : ¬ c = '+' := by
      intro he
      rw [he] at hc
      exact absurd hc (by decide)
    simp only [dropSign]
    rw [if_neg hplus]
    simp only [pyIntDigits]
    rw [uniDigitVal_ascii c hc]
    simp only
    rw [dwuGo_digits t _ ht]
    simp [digitsToNat, List.foldl_cons] at hval
    rw [hval]


theorem fieldH_ok (cs : List Char) (v : Nat) (h : fieldH cs = some v) :
    ':' ∉ cs ∧ '-' ∉ cs ∧ v ≤ 23 := by
  cases cs with
  | nil => simp [fieldH] at h
  | cons c1 t =>
    cases t with
    | nil =>
      simp only [fieldH] at h
      obtain ⟨hc1, hc2⟩ := uniDigitVal_ne_sep c1 v h
      have hlt := uniDigitVal_lt_ten c1 v h
      exact ⟨not_mem_single ':' c1 hc1, not_mem_single '-' c1 hc2, by omega⟩
    | cons c2 t2 =>
      cases t2 with
      | cons c3 t3 => simp [fieldH] at h
      | nil =>
        simp only [fieldH] at h
        by_cases h2 : c1 = '2'
        · rw [if_pos h2] at h
          by_cases h3 : c2 ∈ ['0', '1', '2', '3']
          · rw [if_pos h3] at h
            have hv := Option.some.inj h
            have hb : 48 ≤ c2.toNat ∧ c2.toNat ≤ 51 ∧ c2 ≠ ':' ∧ c2 ≠ '-' := by
              fin_cases h3 <;> exact ⟨by decide, by decide, by decide, by decide⟩
            subst h2
            exact ⟨not_mem_pair ':' '2' c2 (by decide) hb.2.2.1,
                   not_mem_pair '-' '2' c2 (by decide) hb.2.2.2, by omega⟩
          · rw [if_neg h3] at h
            exact Option.noConfusion h
        · rw [if_neg h2] at h
          by_cases h4 : c1 ∈ ['0', '1']
          · rw [if_pos h4] at h
            cases hu : uniDigitVal c2 with
            | none => rw [hu] at h; simp at h
            | some d =>
              rw [hu] at h
              simp only at h
              have hv := Option.some.inj h
              have hd10 := uniDigitVal_lt_ten c2 d hu
              obtain ⟨hne1, hne2⟩ := uniDigitVal_ne_sep c2 d hu
              have hb : 48 ≤ c1.toNat ∧ c1.toNat ≤ 49 ∧ c1 ≠ ':' ∧ c1 ≠ '-' := by
                fin_cases h4 <;> exact ⟨by decide, by decide, by decide, by decide⟩
              exact ⟨not_mem_pair ':' c1 c2 hb.2.2.1 hne1,
                     not_mem_pair '-' c1 c2 hb.2.2.2 hne2, by omega⟩
          · rw [if_neg h4] at h
            exact Option.noConfusion h

theorem fieldM_ok (cs : List Char) (v : Nat) (h : fieldM cs = some v) :
    ':' ∉ cs ∧ '-' ∉ cs ∧ v ≤ 59 := by
  cases cs with
  | nil => simp [fieldM] at h
  | cons c1 t =>
    cases t with
    | nil =>
      simp only [fieldM] at h
      obtain ⟨hc1, hc2⟩ := uniDigitVal_ne_sep c1 v h
      have hlt := uniDigitVal_lt_ten c1 v h
      exact ⟨not_mem_single ':' c1 hc1, not_mem_single '-' c1 hc2, by omega⟩
    | cons c2 t2 =>
      cases t2 with
      | cons c3 t3 => simp [fieldM] at h
      | nil =>
        simp only [fieldM] at h
        by_cases h4 : c1 ∈ ['0', '1', '2', '3', '4', '5']
        · rw [if_pos h4] at h
          cases hu : uniDigitVal c2 with
          | none => rw [hu] at h; simp at h
          | some d =>
            rw [hu] at h
            simp only at h
            have hv := Option.some.inj h
            have hd10 := uniDigitVal_lt_ten c2 d hu
            obtain ⟨hne1, hne2⟩ := uniDigitVal_ne_sep c2 d hu
            have hb : 48 ≤ c1.toNat ∧ c1.toNat ≤ 53 ∧ c1 ≠ ':' ∧ c1 ≠ '-' := by
              fin_cases h4 <;> exact ⟨by decide, by decide, by decide, by decide⟩
            exact ⟨not_mem_pair ':' c1 c2 hb.2.2.1 hne1,
                   not_mem_pair '-' c1 c2 hb.2.2.2 hne2, by omega⟩
        · rw [if_neg h4] at h
          exact Option.noConfusion h

theorem fieldS_ok (cs : List Char) (v : Nat) (h : fieldS cs = some v) :
    ':' ∉ cs ∧ '-' ∉ cs ∧ v ≤ 61 := by
  cases cs with
  | nil => simp [fieldS] at h
  | cons c1 t =>
    cases t with
    | nil =>
      simp only [fieldS] at h
      obtain ⟨hc1, hc2⟩ := uniDigitVal_ne_sep c1 v h
      have hlt := uniDigitVal_lt_ten c1 v h
      exact ⟨not_mem_single ':' c1 hc1, not_mem_single '-' c1 hc2, by omega⟩
    | cons c2 t2 =>
      cases t2 with
      | cons c3 t3 => simp [fieldS] at h
      | nil =>
        simp only [fieldS] at h
        by_cases h2 : c1 = '6'
        · rw [if_pos h2] at h
          by_cases h3 : c2 ∈ ['0', '1']
          · rw [if_pos h3] at h
            have hv := Option.some.inj h
            have hb : 48 ≤ c2.toNat ∧ c2.toNat ≤ 49 ∧ c2 ≠ ':' ∧ c2 ≠ '-' := by
              fin_cases h3 <;> exact ⟨by decide, by decide, by decide, by decide⟩
            subst h2
            exact ⟨not_mem_pair ':' '6' c2 (by decide) hb.2.2.1,
                   not_mem_pair '-' '6' c2 (by decide) hb.2.2.2, by omega⟩
          · rw [if_neg h3] at h
            exact Option.noConfusion h
        · rw [if_neg h2] at h
          by_cases h4 : c1 ∈ ['0', '1', '2', '3', '4', '5']
          · rw [if_pos h4] at h
            cases hu : uniDigitVal c2 with
            | none => rw [hu] at h; simp at h
            | some d =>
              rw [hu] at h
              simp only at h
              have hv := Option.some.inj h
              have hd10 := uniDigitVal_lt_ten c2 d hu
              obtain ⟨hne1, hne2⟩ := uniDigitVal_ne_sep c2 d hu
              have hb : 48 ≤ c1.toNat ∧ c1.toNat ≤ 53 ∧ c1 ≠ ':' ∧ c1 ≠ '-' := by
                fin_cases h4 <;> exact ⟨by decide, by decide, by decide, by decide⟩
              exact ⟨not_mem_pair ':' c1 c2 hb.2.2.1 hne1,
                     not_mem_pair '-' c1 c2 hb.2.2.2 hne2, by omega⟩
          · rw [if_neg h4] at h
            exact Option.noConfusion h

theorem fields_fmt2 : ∀ n, n < 100 →
    (n ≤ 23 → fieldH (fmt2 n) = some n) ∧
    (n ≤ 59 → fieldM (fmt2 n) = some n) ∧
    (n ≤ 61 → fieldS (fmt2 n) = some n) := by decide


theorem dash_not_mem_hms (a b c : List Char)
    (hna : '-' ∉ a) (hnb : '-' ∉ b) (hnc : '-' ∉ c) :
    '-' ∉ a ++ ':' :: (b ++ ':' :: c) := by
  intro hm
  rcases List.mem_append.mp hm with h | h
  · exact hna h
  · rcases List.mem_cons.mp h with h | h
    · exact absurd h (by decide)
    · rcases List.mem_append.mp h with h | h
      · exact hnb h
      · rcases List.mem_cons.mp h with h | h
        · exact absurd h (by decide)
        · exact hnc h

theorem count_colon_hms (a b c : List Char)
    (h0a : ':' ∉ a) (h0b : ':' ∉ b) (h0c : ':' ∉ c) :
    (a ++ ':' :: (b ++ ':' :: c)).count ':' = 2 := by
  simp [List.count_append, List.count_cons, List.count_eq_zero.mpr h0a,
    List.count_eq_zero.mpr h0b, List.count_eq_zero.mpr h0c]

theorem strptimeHMS_parts (a b c : List Char) (hh mm ss : Nat)
    (ha : fieldH a = some hh) (hb : fieldM b = some mm)
    (hc : fieldS c = some ss) (hss : ss < 60) :
    strptimeHMS (a ++ ':' :: (b ++ ':' :: c)) = .ok (hh, mm, ss) := by
  have hfa := fieldH_ok a hh ha
  have hfb := fieldM_ok b mm hb
  have hfc := fieldS_ok c ss hc
  have hsplit : splitOnChar ':' (a ++ ':' :: (b ++ ':' :: c)) = [a, b, c] := by
    rw [splitOnChar_sep ':' a _ hfa.1, splitOnChar_sep ':' b _ hfb.1,
        splitOnChar_no_sep ':' c hfc.1]
  simp [strptimeHMS, hsplit, ha, hb, hc, Nat.not_le.mpr hss]

theorem strptimeMS_parts (b c : List Char) (mm ss : Nat)
    (hb : fieldM b = some mm) (hc : fieldS c = some ss) (hss : ss < 60) :
    strptimeMS (b ++ ':' :: c) = .ok (mm, ss) := by
  have hfb := fieldM_ok b mm hb
  have hfc := fieldS_ok c ss hc
  have hsplit : splitOnChar ':' (b ++ ':' :: c) = [b, c] := by
    rw [splitOnChar_sep ':' b _ hfb.1, splitOnChar_no_sep ':' c hfc.1]
  simp [strptimeMS, hsplit, hb, hc, Nat.not_le.mpr hss]

theorem parseCore_hms (a b c : List Char) (hh mm ss : Nat)
    (ha : fieldH a = some hh) (hb : fieldM b = some mm)
    (hc : fieldS c = some ss) (hss : ss < 60) :
    parseCore (a ++ ':' :: (b ++ ':' :: c)) = .ok (3600 * hh + 60 * mm + ss) := by
  have hfa := fieldH_ok a hh ha
  have hfb := fieldM_ok b mm hb
  have hfc := fieldS_ok c ss hc
  simp [parseCore, hfa.2.1, hfb.2.1, hfc.2.1,
    count_colon_hms a b c hfa.1 hfb.1 hfc.1,
    strptimeHMS_parts a b c hh mm ss ha hb hc hss]

theorem parseCore_ms (b c : List Char) (mm ss : Nat)
    (hb : fieldM b = some mm) (hc : fieldS c = some ss) (hss : ss < 60) :
    parseCore (b ++ ':' :: c) = .ok (60 * mm + ss) := by
  have hfb := fieldM_ok b mm hb
  have hfc := fieldS_ok c ss hc
  have h0b : b.count ':' = 0 := List.count_eq_zero.mpr hfb.1
  have h0c : c.count ':' = 0 := List.count_eq_zero.mpr hfc.1
  have hcount : (b ++ ':' :: c).count ':' = 1 := by
    simp [List.count_append, List.count_cons, h0b, h0c]
  simp [parseCore, hfb.2.1, hfc.2.1, hcount, strptimeMS_parts b c mm ss hb hc hss]

theorem parseCore_days (dd a b c : List Char) (d hh mm ss : Nat)
    (hd : pyInt dd = some d)
    (ha : fieldH a = some hh) (hb : fieldM b = some mm)
    (hc : fieldS c = some ss) (hss : ss < 60) :
    parseCore (dd ++ '-' :: (a ++ ':' :: (b ++ ':' :: c))) =
      .ok (86400 * d + 3600 * hh + 60 * mm + ss) := by
  have hfa := fieldH_ok a hh ha
  have hfb := fieldM_ok b mm hb
  have hfc := fieldS_ok c ss hc
  have hdd : '-' ∉ dd := pyInt_no_dash dd d hd
  have hmem : '-' ∈ dd ++ '-' :: (a ++ ':' :: (b ++ ':' :: c)) :=
    List.mem_append.mpr (Or.inr (List.mem_cons_self _ _))
  have hcon : (dd ++ '-' :: (a ++ ':' :: (b ++ ':' :: c))).contains '-' = true :=
    List.elem_eq_true_of_mem hmem
  have hsplit : splitOnChar '-' (dd ++ '-' :: (a ++ ':' :: (b ++ ':' :: c))) =
      [dd, a ++ ':' :: (b ++ ':' :: c)] := by
    rw [splitOnChar_sep '-' dd _ hdd,
        splitOnChar_no_sep '-' _ (dash_not_mem_hms a b c hfa.2.1 hfb.2.1 hfc.2.1)]
  have harith : 86400 * d + (3600 * hh + 60 * mm + ss) =
      86400 * d + 3600 * hh + 60 * mm + ss := by omega
  simp [parseCore, hcon, hsplit,
    strptimeHMS_parts a b c hh mm ss ha hb hc hss, hd, harith]

theorem strptimeHMS_ok_inv (cs : List Char) (hh mm ss : Nat)
    (hok : strptimeHMS cs = .ok (hh, mm, ss)) :
    ∃ a b c, cs = a ++ ':' :: (b ++ ':' :: c) ∧ fieldH a = some hh ∧
      fieldM b = some mm ∧ fieldS c = some ss ∧ ss < 60 := by
  unfold strptimeHMS at hok
  split at hok
  · rename_i a b c hsp
    split at hok
    · rename_i h0 m0 s0 hfa hfb hfc
      split at hok
      · exact Except.noConfusion hok
      · rename_i hs60
        injection hok with h2
        obtain ⟨hh0, h3⟩ := Prod.mk.inj h2
        obtain ⟨hm0, hs0⟩ := Prod.mk.inj h3
        have hjoin := joinSep_splitOnChar ':' cs
        rw [hsp] at hjoin
        refine ⟨a, b, c, ?_, hh0 ▸ hfa, hm0 ▸ hfb, hs0 ▸ hfc, by omega⟩
        rw [← hjoin]
        rfl
    · exact Except.noConfusion hok
  · exact Except.noConfusion hok

theorem strptimeMS_ok_inv (cs : List Char) (mm ss : Nat)
    (hok : strptimeMS cs = .ok (mm, ss)) :
    ∃ b c, cs = b ++ ':' :: c ∧ fieldM b = some mm ∧
      fieldS c = some ss ∧ ss < 60 := by
  unfold strptimeMS at hok
  split at hok
  · rename_i b c hsp
    split at hok
    · rename_i m0 s0 hfb hfc
      split at hok
      · exact Except.noConfusion hok
      · rename_i hs60
        injection hok with h2
        obtain ⟨hm0, hs0⟩ := Prod.mk.inj h2
        have hjoin := joinSep_splitOnChar ':' cs
        rw [hsp] at hjoin
        refine ⟨b, c, ?_, hm0 ▸ hfb, hs0 ▸ hfc, by omega⟩
        rw [← hjoin]
        rfl
    · exact Except.noConfusion hok
  · exact Except.noConfusion hok

theorem parseCore_ok_inv (cs : List Char) (v : Nat) (h : parseCore cs = .ok v) :
    (∃ a b c hh mm ss, cs = a ++ ':' :: (b ++ ':' :: c) ∧
      fieldH a = some hh ∧ fieldM b = some mm ∧ fieldS c = some ss ∧
      hh ≤ 23 ∧ mm ≤ 59 ∧ ss ≤ 59 ∧ v = 3600 * hh + 60 * mm + ss) ∨
    (∃ b c mm ss, cs = b ++ ':' :: c ∧
      fieldM b = some mm ∧ fieldS c = some ss ∧ mm ≤ 59 ∧ ss ≤ 59 ∧
      v = 60 * mm + ss) ∨
    (∃ dd a b c d hh mm ss, cs = dd ++ '-' :: (a ++ ':' :: (b ++ ':' :: c)) ∧
      pyInt dd = some d ∧ fieldH a = some hh ∧ fieldM b = some mm ∧
      fieldS c = some ss ∧ hh ≤ 23 ∧ mm ≤ 59 ∧ ss ≤ 59 ∧
      v = 86400 * d + 3600 * hh + 60 * mm + ss) := by
  unfold parseCore at h
  split at h
  · split at h
    · rename_i days rest hsp
      split at h
      · exact Except.noConfusion h
      · rename_i hms hh mm ss hstr
        split at h
        · rename_i d hint
          right; right
          obtain ⟨a, b, c, hrest, hfa, hfb, hfc, hs60⟩ :=
            strptimeHMS_ok_inv rest hh mm ss hstr
          have hjoin := joinSep_splitOnChar '-' cs
          rw [hsp] at hjoin
          refine ⟨days, a, b, c, d, hh, mm, ss, ?_, hint, hfa, hfb, hfc,
            (fieldH_ok a hh hfa).2.2, (fieldM_ok b mm hfb).2.2, by omega, ?_⟩
          · rw [← hjoin, ← hrest]
            rfl
          · have := Except.ok.inj h
            omega
        · exact Except.noConfusion h
    · exact Except.noConfusion h
  · split at h
    · split at h
      · rename_i hms hh mm ss hstr
        left
        obtain ⟨a, b, c, hcs, hfa, hfb, hfc, hs60⟩ :=
          strptimeHMS_ok_inv cs hh mm ss hstr
        exact ⟨a, b, c, hh, mm, ss, hcs, hfa, hfb, hfc,
          (fieldH_ok a hh hfa).2.2, (fieldM_ok b mm hfb).2.2, by omega,
          (Except.ok.inj h).symm⟩
      · exact Except.noConfusion h
    · split at h
      · split at h
        · rename_i ms mm ss hstr
          right; left
          obtain ⟨b, c, hcs, hfb, hfc, hs60⟩ := strptimeMS_ok_inv cs mm ss hstr
          exact ⟨b, c, mm, ss, hcs, hfb, hfc,
            (fieldM_ok b mm hfb).2.2, by omega, (Except.ok.inj h).symm⟩
        · exact Except.noConfusion h
      · exact Except.noConfusion h


/-- Claim C4 counterexample: the day field of the `D-HH:MM:SS` layout is
handed to Python `int()`, which also accepts surrounding whitespace, a
leading `+` and underscores between digits — so strings of other layouts
parse successfully instead of failing; and a seconds field of 61, in
range for the `%S` pattern, is rejected by the `datetime` constructor. -/
theorem c4_counterexample :
    parseSlurmTime " 2-12:00:00" = .ok 216000 ∧
    parseSlurmTime "+2-12:00:00" = .ok 216000 ∧
    parseSlurmTime "1_0-12:00:00" = .ok 907200 ∧
    parseSlurmTime "00:00:61" =
      .error "Could not parse time '00:00:61'.\nsecond must be in 0..59" :=
  ⟨rfl, rfl, rfl, rfl⟩

/-- Claim C4 as amended: strings in the three layouts `HH:MM:SS`, `MM:SS`
and `D-HH:MM:SS` parse exactly to the seconds named by their numeric
fields (hours to 23, minutes to 59, seconds to 59: the leap forms 60-61
match `%S` but the `datetime` constructor rejects them); every parse
failure carries a message quoting the offending input; and every
successful parse decomposes into one of the three layouts, where the time
fields are the 1-2 digit forms the `strptime` patterns accept (`\d` being
any Unicode decimal digit) and the day field is any string Python `int()`
accepts — which, beyond plain digits, admits surrounding whitespace, a
leading `+` and underscores between digits, so day-liberal strings
outside the literal layout also parse. -/
theorem c4_time_budget_parsing :
    (∀ hh mm ss, hh ≤ 23 → mm ≤ 59 → ss ≤ 59 →
      parseSlurmTime (String.mk (fmt2 hh ++ ':' :: (fmt2 mm ++ ':' :: fmt2 ss))) =
        .ok (3600 * hh + 60 * mm + ss)) ∧
    (∀ mm ss, mm ≤ 59 → ss ≤ 59 →
      parseSlurmTime (String.mk (fmt2 mm ++ ':' :: fmt2 ss)) = .ok (60 * mm + ss)) ∧
    (∀ d hh mm ss, hh ≤ 23 → mm ≤ 59 → ss ≤ 59 →
      parseSlurmTime (String.mk
          (natDigits d ++ '-' :: (fmt2 hh ++ ':' :: (fmt2 mm ++ ':' :: fmt2 ss)))) =
        .ok (86400 * d + 3600 * hh + 60 * mm + ss)) ∧
    (∀ t e, parseSlurmTime t = .error e →
      ∃ tail, e = "Could not parse time '" ++ t ++ "'.\n" ++ tail) ∧
    (∀ cs v, parseCore cs = .ok v →
      (∃ a b c hh mm ss, cs = a ++ ':' :: (b ++ ':' :: c) ∧
        fieldH a = some hh ∧ fieldM b = some mm ∧ fieldS c = some ss ∧
        hh ≤ 23 ∧ mm ≤ 59 ∧ ss ≤ 59 ∧ v = 3600 * hh + 60 * mm + ss) ∨
      (∃ b c mm ss, cs = b ++ ':' :: c ∧
        fieldM b = some mm ∧ fieldS c = some ss ∧ mm ≤ 59 ∧ ss ≤ 59 ∧
        v = 60 * mm + ss) ∨
      (∃ dd a b c d hh mm ss, cs = dd ++ '-' :: (a ++ ':' :: (b ++ ':' :: c)) ∧
        pyInt dd = some d ∧ fieldH a = some hh ∧ fieldM b = some mm ∧
        fieldS c = some ss ∧ hh ≤ 23 ∧ mm ≤ 59 ∧ ss ≤ 59 ∧
        v = 86400 * d + 3600 * hh + 60 * mm + ss)) := by
  refine ⟨?_, ?_, ?_, ?_, parseCore_ok_inv⟩
  · intro hh mm ss h1 h2 h3
    have hp := parseCore_hms (fmt2 hh) (fmt2 mm) (fmt2 ss) hh mm ss
      ((fields_fmt2 hh (by omega)).1 h1)
      ((fields_fmt2 mm (by omega)).2.1 h2)
      ((fields_fmt2 ss (by omega)).2.2 (by omega)) (by omega)
    simp [parseSlurmTime, hp]
  · intro mm ss h2 h3
    have hp := parseCore_ms (fmt2 mm) (fmt2 ss) mm ss
      ((fields_fmt2 mm (by omega)).2.1 h2)
      ((fields_fmt2 ss (by omega)).2.2 (by omega)) (by omega)
    simp [parseSlurmTime, hp]
  · intro d hh mm ss h1 h2 h3
    have hp := parseCore_days (natDigits d) (fmt2 hh) (fmt2 mm) (fmt2 ss) d hh mm ss
      (pyInt_natDigits d)
      ((fields_fmt2 hh (by omega)).1 h1)
      ((fields_fmt2 mm (by omega)).2.1 h2)
      ((fields_fmt2 ss (by omega)).2.2 (by omega)) (by omega)
    simp [parseSlurmTime, hp]
  · intro t e h
    unfold parseSlurmTime at h
    split at h
    · exact Except.noConfusion h
    · rename_i e0 heq
      exact ⟨e0, (Except.error.inj h).symm⟩

/-- Witness for the amended C4: the spec examples 02:30:00, 45:00 and
2-12:00:00, and the failing input not-a-time whose error message quotes
it. -/
theorem c4_time_budget_parsing_witness :
    parseSlurmTime (String.mk (fmt2 2 ++ ':' :: (fmt2 30 ++ ':' :: fmt2 0))) = .ok 9000 ∧
    String.mk (fmt2 2 ++ ':' :: (fmt2 30 ++ ':' :: fmt2 0)) = "02:30:00" ∧
    parseSlurmTime (String.mk (fmt2 45 ++ ':' :: fmt2 0)) = .ok 2700 ∧
    String.mk (fmt2 45 ++ ':' :: fmt2 0) = "45:00" ∧
    parseSlurmTime (String.mk
        (natDigits 2 ++ '-' :: (fmt2 12 ++ ':' :: (fmt2 0 ++ ':' :: fmt2 0)))) =
      .ok 216000 ∧
    String.mk (natDigits 2 ++ '-' :: (fmt2 12 ++ ':' :: (fmt2 0 ++ ':' :: fmt2 0))) =
      "2-12:00:00" ∧
    (∃ tail, ("Could not parse time 'not-a-time'.\ntoo many values to unpack" : String) =
      "Could not parse time '" ++ "not-a-time" ++ "'.\n" ++ tail) := by
  refine ⟨?_, rfl, ?_, rfl, ?_, rfl, ?_⟩
  · exact (c4_time_budget_parsing.1 2 30 0 (by omega) (by omega) (by omega)).trans
      (by norm_num)
  · exact (c4_time_budget_parsing.2.1 45 0 (by omega) (by omega)).trans (by norm_num)
  · exact (c4_time_budget_parsing.2.2.1 2 12 0 0 (by omega) (by omega) (by omega)).trans
      (by norm_num)
  · exact c4_time_budget_parsing.2.2.2.1 "not-a-time" _ rfl

end Planit
